import Mathlib

/-!
Verification of the Thrifty detection matchmaker (`thrifty/matchmaker.py`).

The development shallowly embeds the three components of the module:

* `match_toads` — the windowed greedy matcher (lines 12–74 of the source),
  embedded via `innerGo` (the inner `for j in range(i+1, num_det)` loop),
  `anchorScan` (one anchor's window scan) and `outerGo` (the outer
  `for i in range(num_det)` loop).
* `load_matches` / `save_matches` — the line-oriented match store
  (lines 77–93), embedded over lines represented as `List Char`.
* `extract_match_matrix` — the receiver-ordered matrix builder
  (lines 96–110), embedded via `rowLoop`.

Timestamps, window sizes and energies are `float` in Python; they are
modelled as `ℚ`, which supports exactly the operations the code performs
(comparison and addition).  Receiver and transmitter ids and detection
indices are modelled as `Nat`.
-/

/-- Correlation info attached to a detection; the matcher reads only the
`energy` field (`toads[j].corr_info.energy`). -/
structure CorrInfo where
  energy : ℚ
deriving DecidableEq, Repr

/-- One detection record (`DetectionResult` in the source).  Only the fields
the matcher reads are modelled. -/
structure DetectionResult where
  timestamp : ℚ
  rxid : Nat
  txid : Nat
  corr_info : CorrInfo
deriving DecidableEq, Repr

instance : Inhabited DetectionResult := ⟨⟨0, 0, 0, ⟨0⟩⟩⟩

/-- Timestamp of detection `k` (`toads[k].timestamp`); out-of-range indices
read the default record, which the algorithm never does. -/
def tsAt (toads : List DetectionResult) (k : Nat) : ℚ :=
  (toads.getD k default).timestamp

/-- Receiver id of detection `k` (`toads[k].rxid`). -/
def rxAt (toads : List DetectionResult) (k : Nat) : Nat :=
  (toads.getD k default).rxid

/-- Transmitter id of detection `k` (`toads[k].txid`). -/
def txAt (toads : List DetectionResult) (k : Nat) : Nat :=
  (toads.getD k default).txid

/-- Energy of detection `k` (`toads[k].corr_info.energy`). -/
def enAt (toads : List DetectionResult) (k : Nat) : ℚ :=
  (toads.getD k default).corr_info.energy

/-- The documented precondition of `match_toads`: the input list is sorted
non-decreasing by timestamp. -/
def TimestampSorted (toads : List DetectionResult) : Prop :=
  List.Pairwise (fun a b => a.timestamp ≤ b.timestamp) toads

instance (toads : List DetectionResult) : Decidable (TimestampSorted toads) :=
  inferInstanceAs (Decidable (List.Pairwise _ _))

/-- First value stored under key `r` in the association list modelling the
Python dict `rx_match` (`rx_match[toads[j].rxid]` lookup; the source's test
`toads[j].rxid in rx_match != -1` chains to a plain membership test, since
`rx_match != -1` is vacuously true for a dict). -/
def lookupRx : List (Nat × Nat) → Nat → Option Nat
  | [], _ => none
  | (r, v) :: rest, key => if r = key then some v else lookupRx rest key

/-- Python-dict assignment `rx_match[key] = v`: replace the value at an
existing key in place, otherwise append the new key at the end (dicts
preserve insertion order of keys). -/
def updateRx : List (Nat × Nat) → Nat → Nat → List (Nat × Nat)
  | [], key, v => [(key, v)]
  | (r, w) :: rest, key, v =>
    if r = key then (key, v) :: rest else (r, w) :: updateRx rest key v

/-- The inner loop of `match_toads` (source lines 50–66), iterating over the
remaining index list `js` (Python: `range(i+1, num_det)`) with `di =
toads[i]` the anchor record and `rx` the accumulation map.  Returns the
final accumulation map, the list of indices set `killed` (in scan order),
and the list of collision pairs appended (in scan order).  The caller
applies the kill list to its `killed` array; this is equivalent to the
source's in-place mutation because the inner loop never reads `killed` or
the global `collisions` list. -/
def innerGo (toads : List DetectionResult) (window : ℚ) (di : DetectionResult) :
    List Nat → List (Nat × Nat) → List (Nat × Nat) × List Nat × List (Nat × Nat)
  | [], rx => (rx, [], [])
  | j :: rest, rx =>
    let dj := toads.getD j default
    if dj.txid ≠ di.txid then
      innerGo toads window di rest rx
    else if dj.timestamp > di.timestamp + window then
      (rx, [], [])
    else
      match lookupRx rx dj.rxid with
      | some prev =>
        let k := if (toads.getD prev default).corr_info.energy > dj.corr_info.energy
                 then prev else j
        let res := innerGo toads window di rest (updateRx rx dj.rxid k)
        (res.1, j :: res.2.1, (prev, j) :: res.2.2)
      | none =>
        let res := innerGo toads window di rest (updateRx rx dj.rxid j)
        (res.1, j :: res.2.1, res.2.2)

/-- One anchor's full window scan: seed the accumulation map with
`{toads[i].rxid: i}` (source lines 47–48) and run the inner loop over
`range(i+1, num_det)`. -/
def anchorScan (toads : List DetectionResult) (window : ℚ) (i : Nat) :
    List (Nat × Nat) × List Nat × List (Nat × Nat) :=
  innerGo toads window (toads.getD i default)
    (List.range' (i + 1) (toads.length - (i + 1)))
    [((toads.getD i default).rxid, i)]

/-- `rx_match.values()` for anchor `i`: the member indices of anchor `i`'s
window, in key-insertion order. -/
def windowMembers (toads : List DetectionResult) (window : ℚ) (i : Nat) : List Nat :=
  (anchorScan toads window i).1.map Prod.snd

/-- The indices marked `killed` during anchor `i`'s window scan. -/
def consumedBy (toads : List DetectionResult) (window : ℚ) (i : Nat) : List Nat :=
  (anchorScan toads window i).2.1

/-- The collision pairs recorded during anchor `i`'s window scan. -/
def collisionsOf (toads : List DetectionResult) (window : ℚ) (i : Nat) : List (Nat × Nat) :=
  (anchorScan toads window i).2.2

/-- The outer loop of `match_toads` (source lines 43–72) over the anchor
index list `is` (Python: `range(num_det)`), with `killed` the current state
of the `killed` array. -/
def outerGo (toads : List DetectionResult) (window : ℚ) (min_match : Nat) :
    List Nat → (Nat → Bool) → List (List Nat) × List Nat × List (Nat × Nat)
  | [], _ => ([], [], [])
  | i :: rest, killed =>
    if killed i then outerGo toads window min_match rest killed
    else
      let res := anchorScan toads window i
      let killed2 := fun m => if m ∈ res.2.1 then true else killed m
      let out := outerGo toads window min_match rest killed2
      if min_match ≤ (res.1.map Prod.snd).length then
        ((res.1.map Prod.snd) :: out.1, out.2.1, res.2.2 ++ out.2.2)
      else
        (out.1, i :: out.2.1, res.2.2 ++ out.2.2)

/-- `match_toads(toads, window, min_match)` (source lines 12–74): returns
`(matches, misses, collisions)`. -/
def match_toads (toads : List DetectionResult) (window : ℚ) (min_match : Nat) :
    List (List Nat) × List Nat × List (Nat × Nat) :=
  outerGo toads window min_match (List.range toads.length) (fun _ => false)

/-- The detection retained in the accumulation map when a collision pair is
resolved (source line 62: `k = prev if prev_ampl > this_ampl else j`). -/
def winnerOf (toads : List DetectionResult) (p : Nat × Nat) : Nat :=
  if (toads.getD p.1 default).corr_info.energy >
      (toads.getD p.2 default).corr_info.energy then p.1 else p.2

/-- The detection discarded from the accumulation map when a collision pair
is resolved: the component of the pair that is not the winner. -/
def loserOf (toads : List DetectionResult) (p : Nat × Nat) : Nat :=
  if (toads.getD p.1 default).corr_info.energy >
      (toads.getD p.2 default).corr_info.energy then p.2 else p.1

/-- The trace of inner-loop iterations for one anchor: the indices `j` for
which the loop body of source lines 50–66 runs.  The control flow of the
inner loop (continue at line 52, break at line 54) depends only on the
transmitter ids and timestamps, so the trace is independent of the
accumulation map. -/
def innerVisits (toads : List DetectionResult) (di : DetectionResult) (window : ℚ) :
    List Nat → List Nat
  | [] => []
  | j :: rest =>
    let dj := toads.getD j default
    if dj.txid ≠ di.txid then j :: innerVisits toads di window rest
    else if dj.timestamp > di.timestamp + window then [j]
    else j :: innerVisits toads di window rest

/-! ## Match store (`load_matches` / `save_matches`, source lines 77–93)

A text file is modelled at the granularity Python's file iteration exposes:
a list of lines, each a `List Char` that retains its trailing newline
(exactly what `for line in file_` yields, and what repeated `file_.write`
calls produce when every written string ends in a newline and contains no
interior newline — true of `save_matches` output). -/

/-- Python `str.split()` whitespace test: space, tab, newline, carriage
return, vertical tab, form feed. -/
def isPyWs (c : Char) : Bool :=
  c == ' ' || c == '\t' || c == '\n' || c == '\r' || c == '\x0b' || c == '\x0c'

/-- Worker for `splitWs`: `acc` holds the (reversed) characters of the token
currently being scanned. -/
def splitWsAux : List Char → List Char → List (List Char)
  | [], acc => if acc = [] then [] else [acc.reverse]
  | c :: rest, acc =>
    if isPyWs c then
      if acc = [] then splitWsAux rest []
      else acc.reverse :: splitWsAux rest []
    else splitWsAux rest (c :: acc)

/-- Python `line.split()` (no separator argument): split on runs of
whitespace, discarding empty tokens. -/
def splitWs (l : List Char) : List (List Char) :=
  splitWsAux l []

/-- ASCII decimal digit test (what Python `int` accepts per character). -/
def isDigitCh (c : Char) : Bool :=
  48 ≤ c.toNat && c.toNat ≤ 57

/-- Python `int(token)` restricted to whitespace-free tokens (the only ones
`split()` produces): an optional sign followed by one or more decimal
digits; anything else raises, modelled as `none`. -/
def parseNatDigits (l : List Char) : Option Nat :=
  if l ≠ [] ∧ l.all isDigitCh then
    some (l.foldl (fun a c => 10 * a + (c.toNat - 48)) 0)
  else none

/-- Python `int(token)` for a token produced by `split()`. -/
def pyInt (l : List Char) : Option Int :=
  if l.head? = some '-' then (parseNatDigits l.tail).map (fun n => -(n : Int))
  else if l.head? = some '+' then (parseNatDigits l.tail).map (fun n => (n : Int))
  else (parseNatDigits l).map (fun n => (n : Int))

/-- Apply a fallible parser to every element, failing if any element fails
(Python `list(map(int, tokens))`, which raises at the first bad token). -/
def mapOpt (f : List Char → Option Int) : List (List Char) → Option (List Int)
  | [] => some []
  | a :: l =>
    match f a, mapOpt f l with
    | some b, some bs => some (b :: bs)
    | _, _ => none

/-- `load_matches` (source lines 77–87) over the lines of the file: skip a
line iff it has length 0 or starts with `'#'`; every other line becomes one
match, `list(map(int, line.split()))`.  A parse failure anywhere makes the
whole load fail (Python raises `ValueError`). -/
def load_matches : List (List Char) → Option (List (List Int))
  | [] => some []
  | line :: rest =>
    if line.length = 0 ∨ line.head? = some '#' then load_matches rest
    else
      match mapOpt pyInt (splitWs line), load_matches rest with
      | some m, some ms => some (m :: ms)
      | _, _ => none

/-- Python `' '.join(tokens)`. -/
def joinSp : List (List Char) → List Char
  | [] => []
  | [t] => t
  | t :: ts => t ++ ' ' :: joinSp ts

/-- Python `str(n)` for a non-negative integer: its decimal digits, most
significant first. -/
def natRepr (n : Nat) : List Char :=
  if n = 0 then ['0'] else (Nat.digits 10 n).reverse.map Nat.digitChar

/-- `save_matches` (source lines 90–93): one `file_.write` per match, each
producing the line `' '.join(map(str, match)) + '\n'`.  Match entries are
detection indices, hence `Nat`. -/
def save_matches (ms : List (List Nat)) : List (List Char) :=
  ms.map (fun m => joinSp (m.map natRepr) ++ ['\n'])

/-! ## Match-matrix builder (`extract_match_matrix`, source lines 96–110) -/

/-- The transmitter filter test of source line 104: with no filter every
match passes; with a filter, the match's transmitter (that of its first
member) must be listed. -/
def txAllowed (dets : List DetectionResult) (m : List Nat) : Option (List Nat) → Bool
  | none => true
  | some ts => decide ((dets.getD (m.getD 0 0) default).txid ∈ ts)

/-- The inner `for i, rxid in enumerate(rxids)` loop of
`extract_match_matrix` (source lines 101–107), carried out over the
remaining receiver ids with `pos` the running `enumerate` index and `row`
the partially assigned row.  A `break` (receiver absent, or transmitter
filtered out) yields `none` — the `for`/`else` then drops the row;
completing the loop yields the assigned row. -/
def rowLoop (dets : List DetectionResult) (m : List Nat) (match_rxids : List Nat)
    (txids : Option (List Nat)) : List Nat → Nat → List (Option Nat) →
    Option (List (Option Nat))
  | [], _, row => some row
  | rxid :: rest, pos, row =>
    if rxid ∉ match_rxids then none
    else if txAllowed dets m txids = false then none
    else rowLoop dets m match_rxids txids rest (pos + 1)
      (row.set pos (some (m.getD (match_rxids.indexOf rxid) 0)))

/-- `extract_match_matrix(detections, matches, rxids, txids)` (source lines
96–110): for each match in order, compute its members' receiver ids, run
the row loop over `rxids` starting from `row = [None] * len(rxids)`, and
keep the row only when the loop completed without `break`. -/
def extract_match_matrix (dets : List DetectionResult) (ms : List (List Nat))
    (rxids : List Nat) (txids : Option (List Nat)) : List (List (Option Nat)) :=
  ms.filterMap (fun m =>
    let match_rxids := m.map (fun v => (dets.getD v default).rxid)
    rowLoop dets m match_rxids txids rxids 0 (List.replicate rxids.length none))

/-- Modelled from the spec (§4.2), for comparison with
`extract_match_matrix`: one row per match that contains every receiver of
`rxids` and passes the transmitter filter; the row lists, per canonical
receiver, the (first) match member with that receiver id; rows preserve
match order, all other matches contribute nothing. -/
def specMatchMatrix (dets : List DetectionResult) (ms : List (List Nat))
    (rxids : List Nat) (txids : Option (List Nat)) : List (List (Option Nat)) :=
  ms.filterMap (fun m =>
    let match_rxids := m.map (fun v => (dets.getD v default).rxid)
    if (∀ r ∈ rxids, r ∈ match_rxids) ∧ txAllowed dets m txids = true then
      some (rxids.map (fun r => some (m.getD (match_rxids.indexOf r) 0)))
    else none)

/-! ## Association-list lemmas for the accumulation map -/

theorem mem_map_fst {rx : List (Nat × Nat)} {key : Nat} :
    key ∈ rx.map Prod.fst ↔ ∃ v, (key, v) ∈ rx := by
  constructor
  · intro h
    obtain ⟨p, hp, he⟩ := List.mem_map.mp h
    exact ⟨p.2, by simpa [← he] using hp⟩
  · rintro ⟨v, hv⟩
    exact List.mem_map.mpr ⟨(key, v), hv, rfl⟩

theorem mem_map_snd {rx : List (Nat × Nat)} {v : Nat} :
    v ∈ rx.map Prod.snd ↔ ∃ key, (key, v) ∈ rx := by
  constructor
  · intro h
    obtain ⟨p, hp, he⟩ := List.mem_map.mp h
    exact ⟨p.1, by simpa [← he] using hp⟩
  · rintro ⟨key, hv⟩
    exact List.mem_map.mpr ⟨(key, v), hv, rfl⟩

theorem lookupRx_mem {rx : List (Nat × Nat)} {key v : Nat}
    (h : lookupRx rx key = some v) : (key, v) ∈ rx := by
  induction rx with
  | nil => simp [lookupRx] at h
  | cons p rest ih =>
    obtain ⟨r, w⟩ := p
    by_cases hr : r = key <;> simp_all [lookupRx]

theorem lookupRx_none {rx : List (Nat × Nat)} {key : Nat}
    (h : lookupRx rx key = none) : key ∉ rx.map Prod.fst := by
  induction rx with
  | nil => simp
  | cons p rest ih =>
    obtain ⟨r, w⟩ := p
    by_cases hr : r = key <;> simp_all [lookupRx]
    omega

theorem lookupRx_isSome {rx : List (Nat × Nat)} {key v : Nat}
    (h : (key, v) ∈ rx) : ∃ w, lookupRx rx key = some w := by
  induction rx with
  | nil => simp at h
  | cons p rest ih =>
    obtain ⟨r, w⟩ := p
    by_cases hr : r = key
    · subst hr
      exact ⟨w, by simp [lookupRx]⟩
    · simp_all [lookupRx]
      rcases h with ⟨h1, _⟩ | h1
      · exact absurd h1.symm hr
      · exact ih h1

theorem map_fst_updateRx_mem {rx : List (Nat × Nat)} {key v w : Nat}
    (h : (key, w) ∈ rx) :
    (updateRx rx key v).map Prod.fst = rx.map Prod.fst := by
  induction rx with
  | nil => simp at h
  | cons p rest ih =>
    obtain ⟨r, u⟩ := p
    by_cases hr : r = key <;> simp_all [updateRx]
    rcases h with h | h
    · exact absurd h.1.symm hr
    · rcases ih h with _
      simp_all

theorem updateRx_not_mem {rx : List (Nat × Nat)} {key : Nat} (v : Nat)
    (h : key ∉ rx.map Prod.fst) : updateRx rx key v = rx ++ [(key, v)] := by
  induction rx with
  | nil => simp [updateRx]
  | cons p rest ih =>
    obtain ⟨r, u⟩ := p
    by_cases hr : r = key <;> simp_all [updateRx]

theorem mem_updateRx_weak {rx : List (Nat × Nat)} {key v : Nat} {p : Nat × Nat}
    (h : p ∈ updateRx rx key v) : p = (key, v) ∨ p ∈ rx := by
  induction rx with
  | nil => simp_all [updateRx]
  | cons q rest ih =>
    obtain ⟨r, w⟩ := q
    by_cases hr : r = key <;> simp_all [updateRx] <;> tauto

theorem mem_updateRx_strong {rx : List (Nat × Nat)} {key v : Nat} {p : Nat × Nat}
    (hn : (rx.map Prod.fst).Nodup) (h : p ∈ updateRx rx key v) :
    p = (key, v) ∨ (p ∈ rx ∧ p.1 ≠ key) := by
  induction rx with
  | nil => simp_all [updateRx]
  | cons q rest ih =>
    obtain ⟨r, w⟩ := q
    by_cases hr : r = key
    · subst hr
      simp only [updateRx, if_pos rfl] at h
      rcases List.mem_cons.mp h with h1 | h1
      · exact Or.inl h1
      · refine Or.inr ⟨List.mem_cons_of_mem _ h1, fun hk => ?_⟩
        have : r ∈ rest.map Prod.fst := mem_map_fst.mpr ⟨p.2, by
          have : p = (p.1, p.2) := rfl
          rw [this, hk] at h1
          exact h1⟩
        simp at hn
        obtain ⟨x, hx⟩ := mem_map_fst.mp this
        exact hn.1 x hx
    · simp only [updateRx, if_neg hr] at h
      have hn2 : (rest.map Prod.fst).Nodup := by
        simp at hn
        exact hn.2
      rcases List.mem_cons.mp h with h1 | h1
      · exact Or.inr ⟨by simp [h1], by simp [h1, hr]⟩
      · rcases ih hn2 h1 with h2 | h2
        · exact Or.inl h2
        · exact Or.inr ⟨List.mem_cons_of_mem _ h2.1, h2.2⟩

theorem updateRx_self {key v : Nat} (rx : List (Nat × Nat)) :
    (key, v) ∈ updateRx rx key v := by
  induction rx with
  | nil => simp [updateRx]
  | cons q rest ih =>
    obtain ⟨r, w⟩ := q
    by_cases hr : r = key <;> simp_all [updateRx]

theorem mem_updateRx_of_ne {rx : List (Nat × Nat)} {key v : Nat} {p : Nat × Nat}
    (h : p ∈ rx) (hne : p.1 ≠ key) : p ∈ updateRx rx key v := by
  induction rx with
  | nil => simp at h
  | cons q rest ih =>
    obtain ⟨r, w⟩ := q
    by_cases hr : r = key
    · subst hr
      simp only [updateRx, if_pos rfl]
      rcases List.mem_cons.mp h with h1 | h1
      · exact absurd (by simp [h1] : p.1 = r) hne
      · exact List.mem_cons_of_mem _ h1
    · simp only [updateRx, if_neg hr]
      rcases List.mem_cons.mp h with h1 | h1
      · exact h1 ▸ List.mem_cons_self _ _
      · exact List.mem_cons_of_mem _ (ih h1)

theorem nodup_updateRx {rx : List (Nat × Nat)} {key v : Nat}
    (hn : (rx.map Prod.fst).Nodup) : ((updateRx rx key v).map Prod.fst).Nodup := by
  by_cases h : key ∈ rx.map Prod.fst
  · obtain ⟨w, hw⟩ := mem_map_fst.mp h
    rw [map_fst_updateRx_mem hw]
    exact hn
  · rw [updateRx_not_mem v h]
    rw [List.map_append, List.nodup_append]
    refine ⟨hn, by simp, ?_⟩
    intro a ha hb
    simp at hb
    subst hb
    exact h ha

theorem nodup_keys_unique {rx : List (Nat × Nat)} {key a b : Nat}
    (hn : (rx.map Prod.fst).Nodup) (ha : (key, a) ∈ rx) (hb : (key, b) ∈ rx) : a = b := by
  induction rx with
  | nil => simp at ha
  | cons q rest ih =>
    obtain ⟨r, w⟩ := q
    have hn1 : r ∉ rest.map Prod.fst := by
      simp at hn
      rw [mem_map_fst]
      push_neg
      exact fun x => hn.1 x
    have hn2 : (rest.map Prod.fst).Nodup := by
      simp at hn
      exact hn.2
    rcases List.mem_cons.mp ha with h1 | h1 <;> rcases List.mem_cons.mp hb with h2 | h2
    · have e1 := (Prod.mk.injEq _ _ _ _).mp h1
      have e2 := (Prod.mk.injEq _ _ _ _).mp h2
      omega
    · exact absurd (((Prod.mk.injEq _ _ _ _).mp h1).1 ▸ mem_map_fst.mpr ⟨b, h2⟩) hn1
    · exact absurd (((Prod.mk.injEq _ _ _ _).mp h2).1 ▸ mem_map_fst.mpr ⟨a, h1⟩) hn1
    · exact ih hn2 h1 h2

/-! ## The master invariant of the inner window scan -/

/-- Structural invariants of one run of the inner loop, given a scan list
`js` that is strictly increasing and in range, and an accumulation map `rx`
whose keys are distinct receiver ids of its values, whose values share the
anchor's transmitter id, and whose values precede every index still to be
scanned.  The conclusions describe the final map `rx2`, the kill list `ks`
and the collision list `cs`. -/
theorem innerGo_master (toads : List DetectionResult) (window : ℚ) (di : DetectionResult) :
    ∀ (js : List Nat) (rx rx2 : List (Nat × Nat)) (ks : List Nat) (cs : List (Nat × Nat)),
    List.Pairwise (· < ·) js →
    (∀ j ∈ js, j < toads.length) →
    (rx.map Prod.fst).Nodup →
    (∀ p ∈ rx, p.2 < toads.length ∧ rxAt toads p.2 = p.1 ∧ txAt toads p.2 = di.txid) →
    (∀ p ∈ rx, ∀ j ∈ js, p.2 < j) →
    innerGo toads window di js rx = (rx2, ks, cs) →
    (rx2.map Prod.fst).Nodup
    ∧ (∀ p ∈ rx2, p.2 < toads.length ∧ rxAt toads p.2 = p.1 ∧ txAt toads p.2 = di.txid)
    ∧ (∀ v ∈ rx2.map Prod.snd, v ∈ rx.map Prod.snd ∨ v ∈ ks)
    ∧ (∀ k ∈ ks, k ∈ js ∧ txAt toads k = di.txid ∧ tsAt toads k ≤ di.timestamp + window)
    ∧ (∀ p ∈ cs, p.2 ∈ ks ∧ (p.1 ∈ rx.map Prod.snd ∨ p.1 ∈ ks) ∧ p.1 < p.2
        ∧ rxAt toads p.1 = rxAt toads p.2 ∧ txAt toads p.1 = di.txid ∧ txAt toads p.2 = di.txid)
    ∧ (∀ x ∈ rx.map Prod.snd, x ∈ rx2.map Prod.snd ∨ ∃ q ∈ cs, q.1 = x ∧ q.2 ∈ ks)
    ∧ (∀ p ∈ cs, loserOf toads p ∉ rx2.map Prod.snd
        ∧ (winnerOf toads p ∈ rx2.map Prod.snd ∨ ∃ q ∈ cs, q.1 = winnerOf toads p ∧ p.2 < q.2)) := by
  intro js
  induction js with
  | nil =>
    intro rx rx2 ks cs _ _ hn hr2 _ heq
    simp only [innerGo, Prod.mk.injEq] at heq
    obtain ⟨rfl, rfl, rfl⟩ := heq
    refine ⟨hn, hr2, fun v hv => Or.inl hv, by simp, by simp, fun x hx => Or.inl hx, by simp⟩
  | cons j rest ih =>
    intro rx rx2 ks cs hpw hlen hn hr2 hlt heq
    have hjrest : ∀ k ∈ rest, j < k := (List.pairwise_cons.mp hpw).1
    have hpw2 : List.Pairwise (· < ·) rest := (List.pairwise_cons.mp hpw).2
    have hlen2 : ∀ k ∈ rest, k < toads.length :=
      fun k hk => hlen k (List.mem_cons_of_mem _ hk)
    have hjn : j < toads.length := hlen j (List.mem_cons_self _ _)
    simp only [innerGo] at heq
    by_cases htx : (toads.getD j default).txid ≠ di.txid
    · rw [if_pos htx] at heq
      have hlt2 : ∀ p ∈ rx, ∀ k ∈ rest, p.2 < k :=
        fun p hp k hk => hlt p hp k (List.mem_cons_of_mem _ hk)
      obtain ⟨c1, c2, c3, c4, c5, c6, c7⟩ :=
        ih rx rx2 ks cs hpw2 hlen2 hn hr2 hlt2 heq
      refine ⟨c1, c2, c3, ?_, ?_, c6, c7⟩
      · intro k hk
        obtain ⟨hk1, hk2, hk3⟩ := c4 k hk
        exact ⟨List.mem_cons_of_mem _ hk1, hk2, hk3⟩
      · intro p hp
        obtain ⟨h1, h2, h3, h4, h5, h6⟩ := c5 p hp
        exact ⟨h1, h2, h3, h4, h5, h6⟩
    · rw [if_neg htx] at heq
      have htx' : txAt toads j = di.txid := not_not.mp htx
      by_cases hts : (toads.getD j default).timestamp > di.timestamp + window
      · rw [if_pos hts] at heq
        simp only [Prod.mk.injEq] at heq
        obtain ⟨rfl, rfl, rfl⟩ := heq
        exact ⟨hn, hr2, fun v hv => Or.inl hv, by simp, by simp, fun x hx => Or.inl hx, by simp⟩
      · rw [if_neg hts] at heq
        have hts' : tsAt toads j ≤ di.timestamp + window := not_lt.mp hts
        rcases hl : lookupRx rx (toads.getD j default).rxid with _ | prev
        · -- new receiver: insert j
          simp only [hl] at heq
          simp only [Prod.mk.injEq] at heq
          obtain ⟨h1, h2, h3⟩ := heq
          subst h1
          subst h2
          subst h3
          have hfresh : (toads.getD j default).rxid ∉ rx.map Prod.fst := lookupRx_none hl
          have hupd : updateRx rx (toads.getD j default).rxid j
              = rx ++ [((toads.getD j default).rxid, j)] := updateRx_not_mem j hfresh
          have hn2 : ((updateRx rx (toads.getD j default).rxid j).map Prod.fst).Nodup :=
            nodup_updateRx hn
          have hr2u : ∀ p ∈ updateRx rx (toads.getD j default).rxid j,
              p.2 < toads.length ∧ rxAt toads p.2 = p.1 ∧ txAt toads p.2 = di.txid := by
            intro p hp
            rcases mem_updateRx_weak hp with h | h
            · subst h
              exact ⟨hjn, rfl, htx'⟩
            · exact hr2 p h
          have hltu : ∀ p ∈ updateRx rx (toads.getD j default).rxid j, ∀ k ∈ rest, p.2 < k := by
            intro p hp k hk
            rcases mem_updateRx_weak hp with h | h
            · subst h
              exact hjrest k hk
            · exact hlt p h k (List.mem_cons_of_mem _ hk)
          obtain ⟨c1, c2, c3, c4, c5, c6, c7⟩ :=
            ih (updateRx rx (toads.getD j default).rxid j) _ _ _ hpw2 hlen2 hn2 hr2u hltu rfl
          have hval : ∀ v, v ∈ (updateRx rx (toads.getD j default).rxid j).map Prod.snd →
              v ∈ rx.map Prod.snd ∨ v = j := by
            intro v hv
            obtain ⟨key, hkey⟩ := mem_map_snd.mp hv
            rcases mem_updateRx_weak hkey with h | h
            · exact Or.inr (congrArg Prod.snd h)
            · exact Or.inl (mem_map_snd.mpr ⟨key, h⟩)
          refine ⟨c1, c2, ?_, ?_, ?_, ?_, ?_⟩
          · intro v hv
            rcases c3 v hv with h | h
            · rcases hval v h with h' | h'
              · exact Or.inl h'
              · exact Or.inr (h' ▸ List.mem_cons_self _ _)
            · exact Or.inr (List.mem_cons_of_mem _ h)
          · intro k hk
            rcases List.mem_cons.mp hk with h | h
            · subst h
              exact ⟨List.mem_cons_self _ _, htx', hts'⟩
            · obtain ⟨hk1, hk2, hk3⟩ := c4 k h
              exact ⟨List.mem_cons_of_mem _ hk1, hk2, hk3⟩
          · intro p hp
            obtain ⟨h1, h2, h3, h4, h5, h6⟩ := c5 p hp
            refine ⟨List.mem_cons_of_mem _ h1, ?_, h3, h4, h5, h6⟩
            rcases h2 with h | h
            · rcases hval p.1 h with h' | h'
              · exact Or.inl h'
              · exact Or.inr (h' ▸ List.mem_cons_self _ _)
            · exact Or.inr (List.mem_cons_of_mem _ h)
          · intro x hx
            obtain ⟨key, hkey⟩ := mem_map_snd.mp hx
            have hne : key ≠ (toads.getD j default).rxid := by
              intro he
              exact hfresh (he ▸ mem_map_fst.mpr ⟨x, hkey⟩)
            have hxu : x ∈ (updateRx rx (toads.getD j default).rxid j).map Prod.snd :=
              mem_map_snd.mpr ⟨key, mem_updateRx_of_ne hkey hne⟩
            rcases c6 x hxu with h | ⟨q, hq, hq1, hq2⟩
            · exact Or.inl h
            · exact Or.inr ⟨q, hq, hq1, List.mem_cons_of_mem _ hq2⟩
          · intro p hp
            obtain ⟨h1, h2⟩ := c7 p hp
            refine ⟨h1, ?_⟩
            rcases h2 with h | ⟨q, hq, hq1, hq2⟩
            · exact Or.inl h
            · exact Or.inr ⟨q, hq, hq1, hq2⟩
        · -- collision: the receiver of j is already mapped to prev
          simp only [hl] at heq
          simp only [Prod.mk.injEq] at heq
          obtain ⟨h1, h2, h3⟩ := heq
          subst h1
          subst h2
          subst h3
          have hprev_mem : ((toads.getD j default).rxid, prev) ∈ rx := lookupRx_mem hl
          obtain ⟨hprevn, hprevrx, hprevtx⟩ := hr2 _ hprev_mem
          dsimp only at hprevn hprevrx hprevtx
          have hprevj : prev < j := hlt _ hprev_mem j (List.mem_cons_self _ _)
          set K := if (toads.getD prev default).corr_info.energy >
              (toads.getD j default).corr_info.energy then prev else j with hK
          have hKcases : K = prev ∨ K = j := by
            rw [hK]
            split_ifs <;> simp
          have hKlt : K ≤ j := by
            rcases hKcases with h | h <;> omega
          have hn2 : ((updateRx rx (toads.getD j default).rxid K).map Prod.fst).Nodup :=
            nodup_updateRx hn
          have hr2u : ∀ p ∈ updateRx rx (toads.getD j default).rxid K,
              p.2 < toads.length ∧ rxAt toads p.2 = p.1 ∧ txAt toads p.2 = di.txid := by
            intro p hp
            rcases mem_updateRx_weak hp with h | h
            · subst h
              rcases hKcases with h | h
              · rw [h]
                exact ⟨hprevn, hprevrx, hprevtx⟩
              · rw [h]
                exact ⟨hjn, rfl, htx'⟩
            · exact hr2 p h
          have hltu : ∀ p ∈ updateRx rx (toads.getD j default).rxid K, ∀ k ∈ rest, p.2 < k := by
            intro p hp k hk
            rcases mem_updateRx_weak hp with h | h
            · subst h
              have := hjrest k hk
              simp only
              omega
            · exact hlt p h k (List.mem_cons_of_mem _ hk)
          obtain ⟨c1, c2, c3, c4, c5, c6, c7⟩ :=
            ih (updateRx rx (toads.getD j default).rxid K) _ _ _ hpw2 hlen2 hn2 hr2u hltu rfl
          have hval : ∀ v, v ∈ (updateRx rx (toads.getD j default).rxid K).map Prod.snd →
              v ∈ rx.map Prod.snd ∨ v ∈ (j :: (innerGo toads window di rest
                (updateRx rx (toads.getD j default).rxid K)).2.1) := by
            intro v hv
            obtain ⟨key, hkey⟩ := mem_map_snd.mp hv
            rcases mem_updateRx_weak hkey with h | h
            · have hv' : v = K := congrArg Prod.snd h
              rcases hKcases with h' | h'
              · exact Or.inl (mem_map_snd.mpr ⟨_, (hv'.trans h') ▸ hprev_mem⟩)
              · exact Or.inr ((hv'.trans h') ▸ List.mem_cons_self _ _)
            · exact Or.inl (mem_map_snd.mpr ⟨key, h⟩)
          refine ⟨c1, c2, ?_, ?_, ?_, ?_, ?_⟩
          · intro v hv
            rcases c3 v hv with h | h
            · exact hval v h
            · exact Or.inr (List.mem_cons_of_mem _ h)
          · intro k hk
            rcases List.mem_cons.mp hk with h | h
            · subst h
              exact ⟨List.mem_cons_self _ _, htx', hts'⟩
            · obtain ⟨hk1, hk2, hk3⟩ := c4 k h
              exact ⟨List.mem_cons_of_mem _ hk1, hk2, hk3⟩
          · intro p hp
            rcases List.mem_cons.mp hp with h | h
            · subst h
              refine ⟨List.mem_cons_self _ _, Or.inl (mem_map_snd.mpr ⟨_, hprev_mem⟩),
                hprevj, ?_, hprevtx, htx'⟩
              show rxAt toads prev = rxAt toads j
              rw [hprevrx]
              rfl
            · obtain ⟨h1, h2, h3, h4, h5, h6⟩ := c5 p h
              refine ⟨List.mem_cons_of_mem _ h1, ?_, h3, h4, h5, h6⟩
              rcases h2 with h' | h'
              · exact hval p.1 h'
              · exact Or.inr (List.mem_cons_of_mem _ h')
          · intro x hx
            obtain ⟨key, hkey⟩ := mem_map_snd.mp hx
            by_cases hkeq : key = (toads.getD j default).rxid
            · have hxprev : x = prev := nodup_keys_unique hn (hkeq ▸ hkey) hprev_mem
              rcases hKcases with h' | h'
              · have hKmem : K ∈ (updateRx rx (toads.getD j default).rxid K).map Prod.snd :=
                  mem_map_snd.mpr ⟨_, updateRx_self _⟩
                have hxK : x = K := by omega
                rcases c6 K hKmem with h | ⟨q, hq, hq1, hq2⟩
                · exact Or.inl (hxK ▸ h)
                · refine Or.inr ⟨q, List.mem_cons_of_mem _ hq, by omega,
                    List.mem_cons_of_mem _ hq2⟩
              · exact Or.inr ⟨(prev, j), List.mem_cons_self _ _, hxprev.symm,
                  List.mem_cons_self _ _⟩
            · have hxu : x ∈ (updateRx rx (toads.getD j default).rxid K).map Prod.snd :=
                mem_map_snd.mpr ⟨key, mem_updateRx_of_ne hkey hkeq⟩
              rcases c6 x hxu with h | ⟨q, hq, hq1, hq2⟩
              · exact Or.inl h
              · exact Or.inr ⟨q, List.mem_cons_of_mem _ hq, hq1, List.mem_cons_of_mem _ hq2⟩
          · intro p hp
            rcases List.mem_cons.mp hp with hpe | hpe
            · -- the new pair (prev, j)
              subst hpe
              have hwin : winnerOf toads (prev, j) = K := rfl
              constructor
              · intro hmem
                by_cases he : (toads.getD prev default).corr_info.energy >
                    (toads.getD j default).corr_info.energy
                · -- prev wins, loser is j
                  have hlos : loserOf toads (prev, j) = j := by
                    simp only [loserOf]
                    rw [if_pos he]
                  rw [hlos] at hmem
                  rcases c3 _ hmem with h | h
                  · obtain ⟨key2, hk2⟩ := mem_map_snd.mp h
                    rcases mem_updateRx_strong hn hk2 with h' | ⟨h', _⟩
                    · have hKp : K = prev := by
                        rw [hK]
                        exact if_pos he
                      have : j = K := congrArg Prod.snd h'
                      omega
                    · have : ((key2, j) : ℕ × ℕ).2 < j := hlt _ h' j (List.mem_cons_self _ _)
                      simp at this
                  · obtain ⟨hk1, _, _⟩ := c4 _ h
                    exact absurd (hjrest _ hk1) (by omega)
                · -- j wins, loser is prev
                  have hlos : loserOf toads (prev, j) = prev := by
                    simp only [loserOf]
                    rw [if_neg he]
                  rw [hlos] at hmem
                  rcases c3 _ hmem with h | h
                  · obtain ⟨key2, hk2⟩ := mem_map_snd.mp h
                    rcases mem_updateRx_strong hn hk2 with h' | ⟨h', hne⟩
                    · have hKj : K = j := by
                        rw [hK]
                        exact if_neg he
                      have : prev = K := congrArg Prod.snd h'
                      omega
                    · obtain ⟨_, hrx2, _⟩ := hr2 _ h'
                      dsimp only at hrx2
                      exact hne (by rw [← hrx2, hprevrx])
                  · obtain ⟨hk1, _, _⟩ := c4 _ h
                    exact absurd (hjrest _ hk1) (by omega)
              · have hKmem : K ∈ (updateRx rx (toads.getD j default).rxid K).map Prod.snd :=
                  mem_map_snd.mpr ⟨_, updateRx_self _⟩
                rcases c6 K hKmem with h | ⟨q, hq, hq1, hq2⟩
                · exact Or.inl (hwin ▸ h)
                · obtain ⟨hq3, _, _⟩ := c4 _ hq2
                  exact Or.inr ⟨q, List.mem_cons_of_mem _ hq, hwin ▸ hq1, hjrest _ hq3⟩
            · obtain ⟨h1, h2⟩ := c7 p hpe
              refine ⟨h1, ?_⟩
              rcases h2 with h | ⟨q, hq, hq1, hq2⟩
              · exact Or.inl h
              · exact Or.inr ⟨q, List.mem_cons_of_mem _ hq, hq1, hq2⟩

/-- Timestamp bound on the final accumulation map: if every seed value's
timestamp is within the window of the anchor, so is every final value's
(consumed indices satisfy the bound by the break test). -/
theorem innerGo_ts (toads : List DetectionResult) (window : ℚ) (di : DetectionResult) :
    ∀ (js : List Nat) (rx rx2 : List (Nat × Nat)) (ks : List Nat) (cs : List (Nat × Nat)),
    (∀ p ∈ rx, tsAt toads p.2 ≤ di.timestamp + window) →
    innerGo toads window di js rx = (rx2, ks, cs) →
    ∀ p ∈ rx2, tsAt toads p.2 ≤ di.timestamp + window := by
  intro js
  induction js with
  | nil =>
    intro rx rx2 ks cs hts heq
    simp only [innerGo, Prod.mk.injEq] at heq
    obtain ⟨rfl, rfl, rfl⟩ := heq
    exact hts
  | cons j rest ih =>
    intro rx rx2 ks cs htsb heq
    simp only [innerGo] at heq
    by_cases htx : (toads.getD j default).txid ≠ di.txid
    · rw [if_pos htx] at heq
      exact ih rx rx2 ks cs htsb heq
    · rw [if_neg htx] at heq
      by_cases hts : (toads.getD j default).timestamp > di.timestamp + window
      · rw [if_pos hts] at heq
        simp only [Prod.mk.injEq] at heq
        obtain ⟨rfl, rfl, rfl⟩ := heq
        exact htsb
      · rw [if_neg hts] at heq
        have htsj : tsAt toads j ≤ di.timestamp + window := not_lt.mp hts
        rcases hl : lookupRx rx (toads.getD j default).rxid with _ | prev
        · simp only [hl] at heq
          simp only [Prod.mk.injEq] at heq
          obtain ⟨h1, h2, h3⟩ := heq
          subst h1
          refine ih _ _ _ _ ?_ rfl
          intro p hp
          rcases mem_updateRx_weak hp with h | h
          · subst h
            exact htsj
          · exact htsb p h
        · simp only [hl] at heq
          simp only [Prod.mk.injEq] at heq
          obtain ⟨h1, h2, h3⟩ := heq
          subst h1
          refine ih _ _ _ _ ?_ rfl
          intro p hp
          rcases mem_updateRx_weak hp with h | h
          · subst h
            dsimp only
            split_ifs with he
            · exact htsb _ (lookupRx_mem hl)
            · exact htsj
          · exact htsb p h

/-- Within-range monotonicity of timestamps on a sorted input. -/
theorem tsAt_mono {toads : List DetectionResult} (hs : TimestampSorted toads)
    {a b : Nat} (hab : a ≤ b) (hb : b < toads.length) : tsAt toads a ≤ tsAt toads b := by
  rcases Nat.eq_or_lt_of_le hab with h | h
  · subst h
    exact le_refl _
  · have ha : a < toads.length := lt_trans h hb
    rw [TimestampSorted, List.pairwise_iff_getElem] at hs
    have := hs a b ha hb h
    rw [tsAt, tsAt, List.getD_eq_getElem toads default ha, List.getD_eq_getElem toads default hb]
    exact this

/-- Completeness of consumption: on a sorted input, the inner scan reaches
and consumes every index in its scan list that shares the anchor's
transmitter id and lies inside the window — the break at the first
out-of-window same-transmitter index cannot skip it. -/
theorem innerGo_complete (toads : List DetectionResult) (window : ℚ) (di : DetectionResult)
    (hs : TimestampSorted toads) :
    ∀ (js : List Nat) (rx : List (Nat × Nat)) (m : Nat),
    List.Pairwise (· < ·) js →
    (∀ j ∈ js, j < toads.length) →
    m ∈ js →
    txAt toads m = di.txid →
    tsAt toads m ≤ di.timestamp + window →
    m ∈ (innerGo toads window di js rx).2.1 := by
  intro js
  induction js with
  | nil =>
    intro rx m _ _ hm
    simp at hm
  | cons j rest ih =>
    intro rx m hpw hlen hm htxm htsm
    have hjrest : ∀ k ∈ rest, j < k := (List.pairwise_cons.mp hpw).1
    have hpw2 : List.Pairwise (· < ·) rest := (List.pairwise_cons.mp hpw).2
    have hlen2 : ∀ k ∈ rest, k < toads.length :=
      fun k hk => hlen k (List.mem_cons_of_mem _ hk)
    simp only [innerGo]
    by_cases htx : (toads.getD j default).txid ≠ di.txid
    · rw [if_pos htx]
      rcases List.mem_cons.mp hm with h | h
      · exact absurd (h ▸ htxm) htx
      · exact ih rx m hpw2 hlen2 h htxm htsm
    · rw [if_neg htx]
      by_cases hts : (toads.getD j default).timestamp > di.timestamp + window
      · exfalso
        rcases List.mem_cons.mp hm with h | h
        · subst h
          exact absurd htsm (not_le.mpr hts)
        · have hjm : j ≤ m := le_of_lt (hjrest m h)
          have : tsAt toads j ≤ tsAt toads m := tsAt_mono hs hjm (hlen m hm)
          exact absurd (lt_of_lt_of_le (lt_of_lt_of_le hts (le_trans this htsm)) (le_refl _))
            (lt_irrefl _)
      · rw [if_neg hts]
        rcases List.mem_cons.mp hm with h | h
        · subst h
          rcases hl : lookupRx rx (toads.getD m default).rxid with _ | prev <;>
            simp only [hl] <;> exact List.mem_cons_self _ _
        · rcases hl : lookupRx rx (toads.getD j default).rxid with _ | prev <;>
            simp only [hl] <;>
            exact List.mem_cons_of_mem _ (ih _ m hpw2 hlen2 h htxm htsm)

/-! ## Per-anchor corollaries -/

/-- The master invariant instantiated at one anchor's window scan. -/
theorem anchor_master (toads : List DetectionResult) (window : ℚ) (i : Nat)
    (hi : i < toads.length) :
    ((anchorScan toads window i).1.map Prod.fst).Nodup
    ∧ (∀ p ∈ (anchorScan toads window i).1, p.2 < toads.length ∧ rxAt toads p.2 = p.1
        ∧ txAt toads p.2 = txAt toads i)
    ∧ (∀ v ∈ windowMembers toads window i, v = i ∨ v ∈ consumedBy toads window i)
    ∧ (∀ k ∈ consumedBy toads window i, (i + 1 ≤ k ∧ k < toads.length)
        ∧ txAt toads k = txAt toads i ∧ tsAt toads k ≤ tsAt toads i + window)
    ∧ (∀ p ∈ collisionsOf toads window i, p.2 ∈ consumedBy toads window i
        ∧ (p.1 = i ∨ p.1 ∈ consumedBy toads window i) ∧ p.1 < p.2
        ∧ rxAt toads p.1 = rxAt toads p.2 ∧ txAt toads p.1 = txAt toads i
        ∧ txAt toads p.2 = txAt toads i)
    ∧ (i ∈ windowMembers toads window i ∨ ∃ q ∈ collisionsOf toads window i,
        q.1 = i ∧ q.2 ∈ consumedBy toads window i)
    ∧ (∀ p ∈ collisionsOf toads window i, loserOf toads p ∉ windowMembers toads window i
        ∧ (winnerOf toads p ∈ windowMembers toads window i
           ∨ ∃ q ∈ collisionsOf toads window i, q.1 = winnerOf toads p ∧ p.2 < q.2)) := by
  have hlen : ∀ j ∈ List.range' (i + 1) (toads.length - (i + 1)), j < toads.length := by
    intro j hj
    rw [List.mem_range'_1] at hj
    omega
  have hr2 : ∀ p ∈ [((toads.getD i default).rxid, i)],
      p.2 < toads.length ∧ rxAt toads p.2 = p.1
        ∧ txAt toads p.2 = (toads.getD i default).txid := by
    intro p hp
    rcases List.mem_singleton.mp hp with rfl
    exact ⟨hi, rfl, rfl⟩
  have hlt : ∀ p ∈ [((toads.getD i default).rxid, i)],
      ∀ j ∈ List.range' (i + 1) (toads.length - (i + 1)), p.2 < j := by
    intro p hp j hj
    rcases List.mem_singleton.mp hp with rfl
    rw [List.mem_range'_1] at hj
    omega
  obtain ⟨c1, c2, c3, c4, c5, c6, c7⟩ :=
    innerGo_master toads window (toads.getD i default)
      (List.range' (i + 1) (toads.length - (i + 1)))
      [((toads.getD i default).rxid, i)]
      (anchorScan toads window i).1 (anchorScan toads window i).2.1
      (anchorScan toads window i).2.2
      (List.pairwise_lt_range' _ _) hlen (by simp) hr2 hlt rfl
  refine ⟨c1, c2, ?_, ?_, ?_, ?_, c7⟩
  · intro v hv
    rcases c3 v hv with h | h
    · simp at h
      exact Or.inl h
    · exact Or.inr h
  · intro k hk
    obtain ⟨h1, h2, h3⟩ := c4 k hk
    rw [List.mem_range'_1] at h1
    exact ⟨⟨h1.1, by omega⟩, h2, h3⟩
  · intro p hp
    obtain ⟨h1, h2, h3, h4, h5, h6⟩ := c5 p hp
    refine ⟨h1, ?_, h3, h4, h5, h6⟩
    rcases h2 with h | h
    · simp at h
      exact Or.inl h
    · exact Or.inr h
  · have : i ∈ ([((toads.getD i default).rxid, i)].map Prod.snd) := by simp
    rcases c6 i this with h | ⟨q, hq, hq1, hq2⟩
    · exact Or.inl h
    · exact Or.inr ⟨q, hq, hq1, hq2⟩

/-- Value lists of a window are duplicate-free (distinct receivers force
distinct members). -/
theorem windowMembers_nodup (toads : List DetectionResult) (window : ℚ) (i : Nat)
    (hi : i < toads.length) : (windowMembers toads window i).Nodup := by
  obtain ⟨c1, c2, _⟩ := anchor_master toads window i hi
  have hmap : (anchorScan toads window i).1.map Prod.fst
      = (windowMembers toads window i).map (rxAt toads) := by
    rw [windowMembers, List.map_map]
    refine List.map_congr_left ?_
    intro p hp
    exact ((c2 p hp).2.1).symm
  rw [hmap] at c1
  exact c1.of_map _

/-- Timestamp window bound on members, given a non-negative window. -/
theorem windowMembers_ts (toads : List DetectionResult) (window : ℚ) (i : Nat)
    (hw : 0 ≤ window) :
    ∀ v ∈ windowMembers toads window i, tsAt toads v ≤ tsAt toads i + window := by
  intro v hv
  rw [windowMembers] at hv
  obtain ⟨key, hkey⟩ := mem_map_snd.mp hv
  have := innerGo_ts toads window (toads.getD i default)
    (List.range' (i + 1) (toads.length - (i + 1)))
    [((toads.getD i default).rxid, i)]
    (anchorScan toads window i).1 (anchorScan toads window i).2.1
    (anchorScan toads window i).2.2
    (by
      intro p hp
      rcases List.mem_singleton.mp hp with rfl
      show tsAt toads i ≤ tsAt toads i + window
      linarith) rfl
  exact this _ hkey

/-- On a sorted input, every same-transmitter in-window index after the
anchor is consumed by the anchor's scan. -/
theorem consumed_complete (toads : List DetectionResult) (window : ℚ) (i m : Nat)
    (hs : TimestampSorted toads) (him : i < m) (hm : m < toads.length)
    (htx : txAt toads m = txAt toads i)
    (hts : tsAt toads m ≤ tsAt toads i + window) :
    m ∈ consumedBy toads window i := by
  rw [consumedBy, anchorScan]
  refine innerGo_complete toads window (toads.getD i default) hs _ _ m
    (List.pairwise_lt_range' _ _) ?_ ?_ htx hts
  · intro j hj
    rw [List.mem_range'_1] at hj
    omega
  · rw [List.mem_range'_1]
    omega

/-! ## Decomposition of the outer loop -/

/-- The outer loop's outputs decompose over the list `A` of anchors it
actually opens (the indices it reaches unkilled): matches are the quorate
windows' member lists, misses the sub-quorum anchors, collisions the
concatenation of the windows' collision lists — all in anchor order.
Every later anchor survived every earlier anchor's kill list. -/
theorem outerGo_dec (toads : List DetectionResult) (window : ℚ) (min_match : Nat) :
    ∀ (is : List Nat) (killed : Nat → Bool),
    ∃ A : List Nat,
      A.Sublist is
      ∧ (∀ a ∈ A, killed a = false)
      ∧ A.Pairwise (fun a b => b ∉ consumedBy toads window a)
      ∧ (∀ j ∈ is, killed j = true ∨ j ∈ A ∨ ∃ a ∈ A, j ∈ consumedBy toads window a)
      ∧ outerGo toads window min_match is killed =
          (A.filterMap (fun a => if min_match ≤ (windowMembers toads window a).length
              then some (windowMembers toads window a) else none),
           A.filter (fun a => decide ((windowMembers toads window a).length < min_match)),
           (A.map (collisionsOf toads window)).flatten) := by
  intro is
  induction is with
  | nil =>
    intro killed
    exact ⟨[], List.nil_sublist _, by simp, by simp, by simp, by simp [outerGo]⟩
  | cons i rest ih =>
    intro killed
    by_cases hk : killed i = true
    · obtain ⟨A, h1, h2, h3, h5, h4⟩ := ih killed
      refine ⟨A, h1.cons _, h2, h3, ?_, ?_⟩
      · intro j hj
        rcases List.mem_cons.mp hj with rfl | hj
        · exact Or.inl hk
        · exact h5 j hj
      · rw [outerGo, if_pos hk]
        exact h4
    · obtain ⟨A, h1, h2, h3, h5, h4⟩ :=
        ih (fun m => if m ∈ (anchorScan toads window i).2.1 then true else killed m)
      have h2' : ∀ a ∈ A, killed a = false ∧ a ∉ consumedBy toads window i := by
        intro a ha
        have h := h2 a ha
        by_cases hmem : a ∈ (anchorScan toads window i).2.1
        · rw [if_pos hmem] at h
          exact absurd h (by simp)
        · rw [if_neg hmem] at h
          exact ⟨h, hmem⟩
      refine ⟨i :: A, h1.cons₂ _, ?_, ?_, ?_, ?_⟩
      · intro a ha
        rcases List.mem_cons.mp ha with rfl | ha
        · exact Bool.not_eq_true _ ▸ (by simpa using hk)
        · exact (h2' a ha).1
      · rw [List.pairwise_cons]
        exact ⟨fun b hb => (h2' b hb).2, h3⟩
      · intro j hj
        rcases List.mem_cons.mp hj with rfl | hj
        · exact Or.inr (Or.inl (List.mem_cons_self _ _))
        · rcases h5 j hj with h | h | ⟨a, ha, hc⟩
          · by_cases hmem : j ∈ (anchorScan toads window i).2.1
            · exact Or.inr (Or.inr ⟨i, List.mem_cons_self _ _, hmem⟩)
            · rw [if_neg hmem] at h
              exact Or.inl h
          · exact Or.inr (Or.inl (List.mem_cons_of_mem _ h))
          · exact Or.inr (Or.inr ⟨a, List.mem_cons_of_mem _ ha, hc⟩)
      · rw [outerGo, if_neg hk]
        simp only [h4]
        by_cases hq : min_match ≤ ((anchorScan toads window i).1.map Prod.snd).length
        · rw [if_pos hq]
          have hqw : min_match ≤ (windowMembers toads window i).length := hq
          simp only [List.filterMap_cons, List.filter_cons, List.map_cons, List.flatten_cons]
          rw [if_pos hqw]
          have : decide ((windowMembers toads window i).length < min_match) = false := by
            simp
            omega
          rw [this]
          rfl
        · rw [if_neg hq]
          have hqw : ¬ min_match ≤ (windowMembers toads window i).length := hq
          simp only [List.filterMap_cons, List.filter_cons, List.map_cons, List.flatten_cons]
          rw [if_neg hqw]
          have : decide ((windowMembers toads window i).length < min_match) = true := by
            simp
            omega
          rw [this]
          rfl

/-- Pairwise gives a relation between any two members, in one order or the
other. -/
theorem pairwise_elim {α : Type} {R : α → α → Prop} :
    ∀ {A : List α}, A.Pairwise R → ∀ {a b : α}, a ∈ A → b ∈ A → a = b ∨ R a b ∨ R b a := by
  intro A h a b ha hb
  induction A with
  | nil => simp at ha
  | cons c rest ih =>
    obtain ⟨hc, hrest⟩ := List.pairwise_cons.mp h
    rcases List.mem_cons.mp ha with rfl | ha' <;> rcases List.mem_cons.mp hb with rfl | hb'
    · exact Or.inl rfl
    · exact Or.inr (Or.inl (hc b hb'))
    · exact Or.inr (Or.inr (hc a ha'))
    · exact ih hrest ha' hb'

/-- Membership characterization of the three outputs of `match_toads` in
terms of the anchor list of the scan. -/
theorem match_toads_cases (toads : List DetectionResult) (window : ℚ) (min_match : Nat)
    (M : List (List Nat)) (X : List Nat) (C : List (Nat × Nat))
    (hE : match_toads toads window min_match = (M, X, C)) :
    ∃ A : List Nat,
      (∀ a ∈ A, a < toads.length)
      ∧ A.Pairwise (· < ·)
      ∧ A.Pairwise (fun a b => b ∉ consumedBy toads window a)
      ∧ (∀ m, m ∈ M ↔ ∃ a ∈ A, min_match ≤ (windowMembers toads window a).length
          ∧ windowMembers toads window a = m)
      ∧ (∀ x, x ∈ X ↔ x ∈ A ∧ (windowMembers toads window x).length < min_match)
      ∧ (∀ p : Nat × Nat, p ∈ C ↔ ∃ a ∈ A, p ∈ collisionsOf toads window a)
      ∧ M = A.filterMap (fun a => if min_match ≤ (windowMembers toads window a).length
          then some (windowMembers toads window a) else none)
      ∧ X = A.filter (fun a => decide ((windowMembers toads window a).length < min_match))
      ∧ (∀ j, j < toads.length → j ∈ A ∨ ∃ a ∈ A, j ∈ consumedBy toads window a) := by
  obtain ⟨A, h1, h2, h3, h5, h4⟩ :=
    outerGo_dec toads window min_match (List.range toads.length) (fun _ => false)
  rw [match_toads] at hE
  rw [hE] at h4
  simp only [Prod.mk.injEq] at h4
  obtain ⟨hM, hX, hC⟩ := h4
  have hcov : ∀ j, j < toads.length → j ∈ A ∨ ∃ a ∈ A, j ∈ consumedBy toads window a := by
    intro j hj
    rcases h5 j (List.mem_range.mpr hj) with h | h | h
    · exact absurd h (by simp)
    · exact Or.inl h
    · exact Or.inr h
  refine ⟨A, ?_, (List.pairwise_lt_range _).sublist h1, h3, ?_, ?_, ?_, hM, hX, hcov⟩
  · intro a ha
    exact List.mem_range.mp (h1.subset ha)
  · intro m
    constructor
    · intro hm
      rw [hM] at hm
      obtain ⟨a, haA, hfa⟩ := List.mem_filterMap.mp hm
      split_ifs at hfa with h
      exact ⟨a, haA, h, by injection hfa⟩
    · rintro ⟨a, haA, hq, rfl⟩
      rw [hM]
      exact List.mem_filterMap.mpr ⟨a, haA, by rw [if_pos hq]⟩
  · intro x
    rw [hX, List.mem_filter]
    simp
  · intro p
    rw [hC, List.mem_flatten]
    constructor
    · rintro ⟨l, hl, hpl⟩
      obtain ⟨a, haA, rfl⟩ := List.mem_map.mp hl
      exact ⟨a, haA, hpl⟩
    · rintro ⟨a, haA, hpa⟩
      exact ⟨collisionsOf toads window a, List.mem_map_of_mem _ haA, hpa⟩

/-- On sorted input, two distinct surviving anchors never consume a common
index: if the later anchor shares the transmitter and window of an index
consumed by the earlier one, the later anchor would itself have been
consumed. -/
theorem consumed_disjoint (toads : List DetectionResult) (window : ℚ)
    (hs : TimestampSorted toads) {a b : Nat}
    (ha : a < toads.length) (hb : b < toads.length) (hab : a < b)
    (hnb : b ∉ consumedBy toads window a) :
    ∀ k, k ∈ consumedBy toads window a → k ∉ consumedBy toads window b := by
  intro k hka hkb
  obtain ⟨_, _, _, c4a, _⟩ := anchor_master toads window a ha
  obtain ⟨_, _, _, c4b, _⟩ := anchor_master toads window b hb
  obtain ⟨⟨hk1a, hk2a⟩, htxa, htsa⟩ := c4a k hka
  obtain ⟨⟨hk1b, _⟩, htxb, _⟩ := c4b k hkb
  have htxab : txAt toads b = txAt toads a := by rw [← htxb, htxa]
  have htsb : tsAt toads b ≤ tsAt toads a + window :=
    le_trans (tsAt_mono hs (by omega) hk2a) htsa
  exact hnb (consumed_complete toads window a b hs hab hb htxab htsb)

/-- `Pairwise` survives `filterMap` when the relation transfers through the
function. -/
theorem pairwise_filterMap {α β : Type} {R : α → α → Prop} {S : β → β → Prop}
    (f : α → Option β) :
    ∀ {A : List α}, A.Pairwise R →
    (∀ a b, R a b → ∀ x, f a = some x → ∀ y, f b = some y → S x y) →
    (A.filterMap f).Pairwise S := by
  intro A h htrans
  induction A with
  | nil => simp
  | cons a rest ih =>
    obtain ⟨ha, hrest⟩ := List.pairwise_cons.mp h
    rw [List.filterMap_cons]
    rcases hfa : f a with _ | x
    · exact ih hrest
    · rw [List.pairwise_cons]
      refine ⟨?_, ih hrest⟩
      intro y hy
      obtain ⟨b, hb, hfb⟩ := List.mem_filterMap.mp hy
      exact htrans a b (ha b hb) x hfa y hfb

/-- On sorted input, the member lists of two distinct surviving anchors are
disjoint. -/
theorem windows_disjoint (toads : List DetectionResult) (window : ℚ)
    (hs : TimestampSorted toads) {A : List Nat}
    (hlt : A.Pairwise (· < ·))
    (hnc : A.Pairwise (fun a b => b ∉ consumedBy toads window a))
    (hn : ∀ a ∈ A, a < toads.length) :
    ∀ a ∈ A, ∀ b ∈ A, a ≠ b →
    ∀ v, v ∈ windowMembers toads window a → v ∉ windowMembers toads window b := by
  intro a ha b hb hne v hva hvb
  obtain ⟨_, _, suba, c4a, _⟩ := anchor_master toads window a (hn a ha)
  obtain ⟨_, _, subb, c4b, _⟩ := anchor_master toads window b (hn b hb)
  have hcases := pairwise_elim (hlt.and hnc) ha hb
  rcases suba v hva with rfl | hca
  · -- v is the anchor a itself
    rcases subb v hvb with he | hcb
    · exact hne he
    · obtain ⟨⟨hb1, _⟩, _, _⟩ := c4b v hcb
      rcases hcases with he | ⟨h1, _⟩ | ⟨_, h2⟩
      · exact hne he
      · omega
      · exact h2 hcb
  · rcases subb v hvb with rfl | hcb
    · obtain ⟨⟨ha1, _⟩, _, _⟩ := c4a v hca
      rcases hcases with he | ⟨_, h2⟩ | ⟨h1, _⟩
      · exact hne he
      · exact h2 hca
      · omega
    · rcases hcases with he | ⟨h1, h2⟩ | ⟨h1, h2⟩
      · exact hne he
      · exact consumed_disjoint toads window hs (hn a ha) (hn b hb) h1 h2 v hca hcb
      · exact consumed_disjoint toads window hs (hn b hb) (hn a ha) h1 h2 v hcb hca

/-- Receiver ids of a window's member list are duplicate-free. -/
theorem windowMembers_rxids_nodup (toads : List DetectionResult) (window : ℚ) (i : Nat)
    (hi : i < toads.length) : ((windowMembers toads window i).map (rxAt toads)).Nodup := by
  obtain ⟨c1, c2, _⟩ := anchor_master toads window i hi
  have hmap : (anchorScan toads window i).1.map Prod.fst
      = (windowMembers toads window i).map (rxAt toads) := by
    rw [windowMembers, List.map_map]
    refine List.map_congr_left ?_
    intro p hp
    exact ((c2 p hp).2.1).symm
  rw [hmap] at c1
  exact c1

/-! ## Concrete inputs for counterexamples and witnesses -/

/-- Two same-receiver detections; the anchor has the lower energy and fails
quorum 2, so it is reported as a miss although it lost its collision. -/
def toadsC1 : List DetectionResult := [⟨0, 0, 1, ⟨1⟩⟩, ⟨1, 0, 1, ⟨5⟩⟩]

/-- Two same-receiver detections where the earlier-scanned one has the
higher energy and wins its collision. -/
def toadsC2 : List DetectionResult := [⟨0, 0, 1, ⟨9⟩⟩, ⟨0, 0, 1, ⟨5⟩⟩]

/-- The first out-of-window detection belongs to a different transmitter,
so the inner loop continues past it. -/
def toadsC3 : List DetectionResult := [⟨0, 0, 1, ⟨0⟩⟩, ⟨10, 0, 2, ⟨0⟩⟩, ⟨11, 0, 1, ⟨0⟩⟩]

/-- The anchor is evicted from its own window by a higher-energy collision,
so the emitted match does not contain the anchor. -/
def toadsC6 : List DetectionResult := [⟨0, 0, 1, ⟨1⟩⟩, ⟨1, 1, 1, ⟨1⟩⟩, ⟨2, 0, 1, ⟨5⟩⟩]

/-- Two detections at distinct receivers forming one quorate match. -/
def toadsW : List DetectionResult := [⟨0, 0, 1, ⟨1⟩⟩, ⟨0, 1, 1, ⟨1⟩⟩]

/-- Two detections at the same receiver producing one collision. -/
def toadsWc : List DetectionResult := [⟨0, 0, 1, ⟨1⟩⟩, ⟨0, 0, 1, ⟨2⟩⟩]

/-! ## Claim C10 -/

/-- C10: for every timestamp-sorted input, every pair `(a, b)` in the
collisions list returned by `match_toads` satisfies `a < b` — the first
component is the previously accumulated (earlier-scanned) index and the
second the newly scanned index, so collision pairs are ordered by scan
position, not by which detection won. -/
theorem C10_collision_pairs_scan_ordered (toads : List DetectionResult) (window : ℚ)
    (min_match : Nat) (M : List (List Nat)) (X : List Nat) (C : List (Nat × Nat))
    (hs : TimestampSorted toads)
    (hE : match_toads toads window min_match = (M, X, C)) :
    ∀ p ∈ C, p.1 < p.2 := by
  obtain ⟨A, hAn, _, _, _, _, hCmem, _, _⟩ :=
    match_toads_cases toads window min_match M X C hE
  intro p hp
  obtain ⟨a, haA, hpa⟩ := (hCmem p).mp hp
  obtain ⟨_, _, _, _, c5, _⟩ := anchor_master toads window a (hAn a haA)
  exact (c5 p hpa).2.2.1

theorem C10_witness : TimestampSorted toadsWc ∧ (0 : Nat) < 1 := by
  have hs : TimestampSorted toadsWc := by norm_num [TimestampSorted, toadsWc]
  have hE : match_toads toadsWc 1 1 = ([[1]], [], [(0, 1)]) := by
    norm_num [toadsWc, match_toads, outerGo, anchorScan, innerGo, updateRx, lookupRx]
  exact ⟨hs, C10_collision_pairs_scan_ordered toadsWc 1 1 [[1]] [] [(0, 1)] hs hE
    (0, 1) (by simp)⟩

/-! ## Claim C2 -/

/-- C2 counterexample: on `toadsC2` the recorded collision pair is `(0, 1)`
although detection `0` has the higher energy and is retained (it is the
member of the emitted match) while detection `1` is the one discarded — so
the pair is not `(loser_index, winner_index)`. -/
theorem C2_counterexample :
    match_toads toadsC2 1 1 = ([[0]], [], [(0, 1)])
    ∧ winnerOf toadsC2 (0, 1) = 0 ∧ loserOf toadsC2 (0, 1) = 1
    ∧ 0 ∈ [0] := by
  refine ⟨?_, ?_, ?_, by simp⟩ <;>
    norm_num [toadsC2, match_toads, outerGo, anchorScan, innerGo, updateRx, lookupRx,
      winnerOf, loserOf]

/-- C2 amended: every pair appended to the collisions output of
`match_toads` is ordered by scan position, `(previously accumulated index,
newly scanned index)` — first component strictly smaller — and its two
components have identical receiver id and identical transmitter id; which
of the two is retained is decided separately by the energy comparison. -/
theorem C2_amended_collision_pair_order (toads : List DetectionResult) (window : ℚ)
    (min_match : Nat) (M : List (List Nat)) (X : List Nat) (C : List (Nat × Nat))
    (hE : match_toads toads window min_match = (M, X, C)) :
    ∀ p ∈ C, p.1 < p.2 ∧ rxAt toads p.1 = rxAt toads p.2
      ∧ txAt toads p.1 = txAt toads p.2 := by
  obtain ⟨A, hAn, _, _, _, _, hCmem, _, _⟩ :=
    match_toads_cases toads window min_match M X C hE
  intro p hp
  obtain ⟨a, haA, hpa⟩ := (hCmem p).mp hp
  obtain ⟨_, _, _, _, c5, _⟩ := anchor_master toads window a (hAn a haA)
  obtain ⟨_, _, h3, h4, h5, h6⟩ := c5 p hpa
  exact ⟨h3, h4, by rw [h5, h6]⟩

theorem C2_amended_witness :
    (0 : Nat) < 1 ∧ rxAt toadsWc 0 = rxAt toadsWc 1 ∧ txAt toadsWc 0 = txAt toadsWc 1 := by
  have hE : match_toads toadsWc 1 1 = ([[1]], [], [(0, 1)]) := by
    norm_num [toadsWc, match_toads, outerGo, anchorScan, innerGo, updateRx, lookupRx]
  exact C2_amended_collision_pair_order toadsWc 1 1 [[1]] [] [(0, 1)] hE (0, 1) (by simp)

/-! ## Claim C4 -/

/-- C4: collision resolution is deterministic by energy.  For every
collision pair of `match_toads`, the detection selected by the source's
rule `k = prev if prev_ampl > this_ampl else j` — the strictly
higher-energy one, or the later-scanned one on ties (`winnerOf`) — is the
one retained in that window's accumulation map (it is a member of the
window, unless it is itself displaced by a strictly later collision in the
same window), and the other detection (`loserOf`) is discarded: it is
never among the window's members. -/
theorem C4_energy_tie_break (toads : List DetectionResult) (window : ℚ)
    (min_match : Nat) (M : List (List Nat)) (X : List Nat) (C : List (Nat × Nat))
    (hE : match_toads toads window min_match = (M, X, C)) :
    ∀ p ∈ C, ∃ a, a < toads.length ∧ p ∈ collisionsOf toads window a
      ∧ loserOf toads p ∉ windowMembers toads window a
      ∧ (winnerOf toads p ∈ windowMembers toads window a
         ∨ ∃ q ∈ collisionsOf toads window a, q.1 = winnerOf toads p ∧ p.2 < q.2) := by
  obtain ⟨A, hAn, _, _, _, _, hCmem, _, _⟩ :=
    match_toads_cases toads window min_match M X C hE
  intro p hp
  obtain ⟨a, haA, hpa⟩ := (hCmem p).mp hp
  obtain ⟨_, _, _, _, _, _, c7⟩ := anchor_master toads window a (hAn a haA)
  obtain ⟨h1, h2⟩ := c7 p hpa
  exact ⟨a, hAn a haA, hpa, h1, h2⟩

theorem C4_witness :
    ∃ a, a < toadsWc.length ∧ (0, 1) ∈ collisionsOf toadsWc 1 a
      ∧ loserOf toadsWc (0, 1) ∉ windowMembers toadsWc 1 a
      ∧ (winnerOf toadsWc (0, 1) ∈ windowMembers toadsWc 1 a
         ∨ ∃ q ∈ collisionsOf toadsWc 1 a, q.1 = winnerOf toadsWc (0, 1) ∧ 1 < q.2) := by
  have hE : match_toads toadsWc 1 1 = ([[1]], [], [(0, 1)]) := by
    norm_num [toadsWc, match_toads, outerGo, anchorScan, innerGo, updateRx, lookupRx]
  exact C4_energy_tie_break toadsWc 1 1 [[1]] [] [(0, 1)] hE (0, 1) (by simp)

/-! ## Claim C5 -/

/-- C5: for every input and every `min_receivers ≥ 1`, each match emitted
by `match_toads` has at least `min_match` members with pairwise-distinct
receiver ids (at most one member per receiver); and the misses list is
exactly the anchors whose accumulation map ended with fewer than
`min_match` distinct receivers, in order, each contributing exactly the
anchor index itself: there is a list `A` of anchors — strictly increasing,
in range, pairwise unconsumed, and covering every index (any index is an
anchor or is consumed by an anchor) — with
`misses = A.filter (sub-quorum)`.  In particular every entry of the misses
list is an in-range sub-quorum anchor, whenever an anchor's map ends
sub-quorum that anchor is appended, and misses are pairwise distinct. -/
theorem C5_quorum (toads : List DetectionResult) (window : ℚ)
    (min_match : Nat) (M : List (List Nat)) (X : List Nat) (C : List (Nat × Nat))
    (hm : 1 ≤ min_match)
    (hE : match_toads toads window min_match = (M, X, C)) :
    (∀ m ∈ M, min_match ≤ m.length ∧ (m.map (rxAt toads)).Nodup)
    ∧ (∀ x ∈ X, x < toads.length ∧ (windowMembers toads window x).length < min_match)
    ∧ X.Nodup
    ∧ ∃ A : List Nat,
        (∀ a ∈ A, a < toads.length)
        ∧ A.Pairwise (· < ·)
        ∧ A.Pairwise (fun a b => b ∉ consumedBy toads window a)
        ∧ (∀ j, j < toads.length → j ∈ A ∨ ∃ a ∈ A, a < j ∧ j ∈ consumedBy toads window a)
        ∧ X = A.filter (fun a => decide ((windowMembers toads window a).length < min_match)) := by
  obtain ⟨A, hAn, hAlt, hAnc, hMmem, hXmem, _, _, hXeq, hcov⟩ :=
    match_toads_cases toads window min_match M X C hE
  refine ⟨?_, ?_, ?_, A, hAn, hAlt, hAnc, ?_, hXeq⟩
  · intro m hm'
    obtain ⟨a, haA, hq, rfl⟩ := (hMmem m).mp hm'
    exact ⟨hq, windowMembers_rxids_nodup toads window a (hAn a haA)⟩
  · intro x hx
    obtain ⟨hxA, hxq⟩ := (hXmem x).mp hx
    exact ⟨hAn x hxA, hxq⟩
  · rw [hXeq]
    exact (hAlt.imp (fun h => Nat.ne_of_lt h)).filter _
  · intro j hj
    rcases hcov j hj with h | ⟨a, haA, hc⟩
    · exact Or.inl h
    · obtain ⟨_, _, _, c4a, _⟩ := anchor_master toads window a (hAn a haA)
      obtain ⟨⟨h1, _⟩, _, _⟩ := c4a j hc
      exact Or.inr ⟨a, haA, by omega, hc⟩

theorem C5_witness :
    1 ≤ 2
    ∧ ((∀ m ∈ [[0, 1]], 2 ≤ m.length ∧ (m.map (rxAt toadsW)).Nodup)
    ∧ (∀ x ∈ ([] : List Nat), x < toadsW.length ∧ (windowMembers toadsW 1 x).length < 2)
    ∧ ([] : List Nat).Nodup
    ∧ ∃ A : List Nat,
        (∀ a ∈ A, a < toadsW.length)
        ∧ A.Pairwise (· < ·)
        ∧ A.Pairwise (fun a b => b ∉ consumedBy toadsW 1 a)
        ∧ (∀ j, j < toadsW.length → j ∈ A ∨ ∃ a ∈ A, a < j ∧ j ∈ consumedBy toadsW 1 a)
        ∧ ([] : List Nat)
            = A.filter (fun a => decide ((windowMembers toadsW 1 a).length < 2))) := by
  have hE : match_toads toadsW 1 2 = ([[0, 1]], [], []) := by
    norm_num [toadsW, match_toads, outerGo, anchorScan, innerGo, updateRx, lookupRx]
  exact ⟨by norm_num, C5_quorum toadsW 1 2 [[0, 1]] [] [] (by norm_num) hE⟩

/-! ## Claim C6 -/

/-- C6 counterexample: on the sorted input `toadsC6` with `window = 2 ≥ 0`,
the emitted match is `[2, 1]`: the anchor `0` was evicted by the collision
`(0, 2)` and is not a member, and every member's timestamp strictly
exceeds the anchor's — the minimum member timestamp (that of detection 1)
is not attained by the anchor. -/
theorem C6_counterexample :
    TimestampSorted toadsC6 ∧ (0 : ℚ) ≤ 2
    ∧ match_toads toadsC6 2 2 = ([[2, 1]], [], [(0, 2)])
    ∧ 0 ∉ [2, 1]
    ∧ ∀ v ∈ [2, 1], tsAt toadsC6 0 < tsAt toadsC6 v := by
  refine ⟨by norm_num [TimestampSorted, toadsC6], by norm_num, ?_, by simp, ?_⟩
  · norm_num [toadsC6, match_toads, outerGo, anchorScan, innerGo, updateRx, lookupRx]
  · intro v hv
    rcases List.mem_cons.mp hv with rfl | hv
    · norm_num [toadsC6, tsAt]
    · rcases List.mem_cons.mp hv with rfl | hv
      · norm_num [toadsC6, tsAt]
      · cases hv

/-- C6 amended: under the precondition that the input is sorted
non-decreasing by timestamp and `window ≥ 0`, every match emitted by
`match_toads` satisfies `max(timestamp) - min(timestamp) ≤ window` among
its members (stated pairwise); all member timestamps lie in
`[anchor, anchor + window]`, but the minimum need not be attained by the
anchor, which a collision may evict from its own window. -/
theorem C6_amended_window_bound (toads : List DetectionResult) (window : ℚ)
    (min_match : Nat) (M : List (List Nat)) (X : List Nat) (C : List (Nat × Nat))
    (hs : TimestampSorted toads) (hw : 0 ≤ window)
    (hE : match_toads toads window min_match = (M, X, C)) :
    ∀ m ∈ M, ∀ u ∈ m, ∀ v ∈ m, tsAt toads u ≤ tsAt toads v + window := by
  obtain ⟨A, hAn, _, _, hMmem, _, _, _, _⟩ :=
    match_toads_cases toads window min_match M X C hE
  intro m hm u hu v hv
  obtain ⟨a, haA, _, rfl⟩ := (hMmem m).mp hm
  have ha : a < toads.length := hAn a haA
  obtain ⟨_, _, sub, c4, _⟩ := anchor_master toads window a ha
  have hub : tsAt toads u ≤ tsAt toads a + window := windowMembers_ts toads window a hw u hu
  have hav : tsAt toads a ≤ tsAt toads v := by
    rcases sub v hv with rfl | hc
    · exact le_refl _
    · obtain ⟨⟨h1, h2⟩, _, _⟩ := c4 v hc
      exact tsAt_mono hs (by omega) h2
  linarith

theorem C6_amended_witness :
    TimestampSorted toadsW ∧ (0 : ℚ) ≤ 1
    ∧ ∀ m ∈ [[0, 1]], ∀ u ∈ m, ∀ v ∈ m, tsAt toadsW u ≤ tsAt toadsW v + 1 := by
  have hs : TimestampSorted toadsW := by norm_num [TimestampSorted, toadsW]
  have hE : match_toads toadsW 1 2 = ([[0, 1]], [], []) := by
    norm_num [toadsW, match_toads, outerGo, anchorScan, innerGo, updateRx, lookupRx]
  exact ⟨hs, by norm_num,
    C6_amended_window_bound toadsW 1 2 [[0, 1]] [] [] hs (by norm_num) hE⟩

/-! ## Claim C1 -/

/-- The discarded side of a collision pair is one of its two components. -/
theorem loserOf_mem_pair (toads : List DetectionResult) (p : Nat × Nat) :
    loserOf toads p = p.1 ∨ loserOf toads p = p.2 := by
  rw [loserOf]
  split_ifs
  · exact Or.inr rfl
  · exact Or.inl rfl

/-- Disjointness of the member lists of two surviving anchors, pair form. -/
theorem windows_disjoint_pair (toads : List DetectionResult) (window : ℚ)
    (hs : TimestampSorted toads) {a b : Nat}
    (ha : a < toads.length) (hb : b < toads.length) (hab : a < b)
    (hnb : b ∉ consumedBy toads window a) :
    ∀ v ∈ windowMembers toads window a, v ∉ windowMembers toads window b := by
  intro v hva hvb
  obtain ⟨_, _, suba, c4a, _⟩ := anchor_master toads window a ha
  obtain ⟨_, _, subb, c4b, _⟩ := anchor_master toads window b hb
  rcases suba v hva with rfl | hca <;> rcases subb v hvb with he | hcb
  · omega
  · obtain ⟨⟨h1, _⟩, _, _⟩ := c4b v hcb
    omega
  · exact hnb (he ▸ hca)
  · exact consumed_disjoint toads window hs ha hb hab hnb v hca hcb

/-- C1 counterexample: on the sorted input `toadsC1` (window `2 ≥ 0`,
`min_match = 2 ≥ 1`) the anchor `0` loses its collision `(0, 1)` — its
energy is lower, so `loserOf` names it as the discarded detection — yet it
is also reported as a miss: a collision loser appears in the misses list,
so the three categories are not mutually exclusive as claimed. -/
theorem C1_counterexample :
    TimestampSorted toadsC1 ∧ (0 : ℚ) ≤ 2 ∧ 1 ≤ 2
    ∧ match_toads toadsC1 2 2 = ([], [0], [(0, 1)])
    ∧ loserOf toadsC1 (0, 1) = 0
    ∧ 0 ∈ [0] := by
  refine ⟨by norm_num [TimestampSorted, toadsC1], by norm_num, by norm_num, ?_, ?_, by simp⟩
  · norm_num [toadsC1, match_toads, outerGo, anchorScan, innerGo, updateRx, lookupRx]
  · norm_num [toadsC1, loserOf]

/-- C1 amended: for sorted input, `window ≥ 0` and `min_receivers ≥ 1`,
membership is exclusive with one exception.  No index lies in two distinct
matches or twice in one match; no index is both a match member and a miss;
a collision loser is never a match member; and a collision loser coincides
with a miss only when it is the anchor that lost the slot of its own
window (the loser is then the first component of its collision pair);
a miss is never the consumed (second) component of a collision; misses are
pairwise distinct. -/
theorem C1_amended_membership_partition (toads : List DetectionResult) (window : ℚ)
    (min_match : Nat) (M : List (List Nat)) (X : List Nat) (C : List (Nat × Nat))
    (hs : TimestampSorted toads) (hw : 0 ≤ window) (hm : 1 ≤ min_match)
    (hE : match_toads toads window min_match = (M, X, C)) :
    M.Pairwise (fun m1 m2 => ∀ v ∈ m1, v ∉ m2)
    ∧ (∀ m ∈ M, m.Nodup)
    ∧ (∀ m ∈ M, ∀ x ∈ X, x ∉ m)
    ∧ (∀ m ∈ M, ∀ p ∈ C, loserOf toads p ∉ m)
    ∧ (∀ x ∈ X, ∀ p ∈ C, p.2 ≠ x ∧ (loserOf toads p = x → p.1 = x))
    ∧ X.Nodup := by
  obtain ⟨A, hAn, hAlt, hAnc, hMmem, hXmem, hCmem, hMeq, hXeq, _⟩ :=
    match_toads_cases toads window min_match M X C hE
  have hpair := hAlt.and hAnc
  refine ⟨?_, ?_, ?_, ?_, ?_, ?_⟩
  · -- no index in two distinct matches
    have hpair2 : A.Pairwise (fun a b => a < toads.length ∧ b < toads.length
        ∧ a < b ∧ b ∉ consumedBy toads window a) := by
      refine hpair.imp_of_mem ?_
      intro a b ha hb hr
      exact ⟨hAn a ha, hAn b hb, hr⟩
    rw [hMeq]
    refine pairwise_filterMap _ hpair2 ?_
    · intro a b hr x hx y hy
      obtain ⟨han, hbn, hab, hnc⟩ := hr
      split_ifs at hx hy
      have hx' : x = windowMembers toads window a := by injection hx.symm
      have hy' : y = windowMembers toads window b := by injection hy.symm
      subst hx'
      subst hy'
      exact windows_disjoint_pair toads window hs han hbn hab hnc
  · -- no index twice within one match
    intro m hm'
    obtain ⟨a, haA, _, rfl⟩ := (hMmem m).mp hm'
    exact windowMembers_nodup toads window a (hAn a haA)
  · -- a miss is never a match member
    intro m hm' x hx
    obtain ⟨b, hbA, hq, rfl⟩ := (hMmem m).mp hm'
    obtain ⟨hxA, hxq⟩ := (hXmem x).mp hx
    intro hxm
    obtain ⟨_, _, subb, c4b, _⟩ := anchor_master toads window b (hAn b hbA)
    rcases subb x hxm with rfl | hc
    · -- x = b : but b is quorate and x is not
      omega
    · obtain ⟨⟨h1, _⟩, _, _⟩ := c4b x hc
      rcases pairwise_elim hpair hxA hbA with rfl | ⟨hlt', hnc'⟩ | ⟨hlt', hnc'⟩
      · omega
      · omega
      · exact hnc' hc
  · -- a collision loser is never a match member
    intro m hm' p hp
    obtain ⟨b, hbA, hq, rfl⟩ := (hMmem m).mp hm'
    obtain ⟨a, haA, hpa⟩ := (hCmem p).mp hp
    obtain ⟨_, _, suba, c4a, c5a, _, c7a⟩ := anchor_master toads window a (hAn a haA)
    obtain ⟨_, _, subb, c4b, _⟩ := anchor_master toads window b (hAn b hbA)
    by_cases hab : a = b
    · subst hab
      exact (c7a p hpa).1
    · intro hLb
      obtain ⟨hp2, hp1, _⟩ := c5a p hpa
      have hLa : loserOf toads p = a ∨ loserOf toads p ∈ consumedBy toads window a := by
        rcases loserOf_mem_pair toads p with h | h
        · rw [h]
          exact hp1
        · rw [h]
          exact Or.inr hp2
      have hLbcases := subb _ hLb
      rcases pairwise_elim hpair haA hbA with he | ⟨hlt', hnc'⟩ | ⟨hlt', hnc'⟩
      · exact hab he
      · rcases hLa with hL1 | hL1 <;> rcases hLbcases with hL2 | hL2
        · omega
        · obtain ⟨⟨hge, _⟩, _, _⟩ := c4b _ hL2
          omega
        · exact hnc' (hL2 ▸ hL1)
        · exact consumed_disjoint toads window hs (hAn a haA) (hAn b hbA) hlt' hnc' _ hL1 hL2
      · rcases hLa with hL1 | hL1 <;> rcases hLbcases with hL2 | hL2
        · omega
        · exact hnc' (hL1 ▸ hL2)
        · obtain ⟨⟨hge, _⟩, _, _⟩ := c4a _ hL1
          omega
        · exact consumed_disjoint toads window hs (hAn b hbA) (hAn a haA) hlt' hnc' _ hL2 hL1
  · -- a miss is never the consumed component; a loser-miss is the anchor
    intro x hx p hp
    obtain ⟨hxA, hxq⟩ := (hXmem x).mp hx
    obtain ⟨a, haA, hpa⟩ := (hCmem p).mp hp
    obtain ⟨_, _, _, c4a, c5a, _, _⟩ := anchor_master toads window a (hAn a haA)
    obtain ⟨hp2, hp1, _⟩ := c5a p hpa
    obtain ⟨⟨hk1, _⟩, _, _⟩ := c4a p.2 hp2
    have hne : p.2 ≠ x := by
      intro he
      by_cases hax : a = x
      · omega
      · rcases pairwise_elim hpair haA hxA with rfl | ⟨hlt', hnc'⟩ | ⟨hlt', hnc'⟩
        · exact hax rfl
        · exact hnc' (he ▸ hp2)
        · omega
    refine ⟨hne, ?_⟩
    intro hLx
    rcases loserOf_mem_pair toads p with h | h
    · rw [h] at hLx
      rw [hLx]
    · rw [h] at hLx
      exact absurd hLx hne
  · rw [hXeq]
    exact (hAlt.imp (fun h => Nat.ne_of_lt h)).filter _

theorem C1_amended_witness :
    TimestampSorted toadsW ∧ (0 : ℚ) ≤ 1 ∧ 1 ≤ 2
    ∧ (List.Pairwise (fun m1 m2 => ∀ v ∈ m1, v ∉ m2) [[0, 1]]
      ∧ (∀ m ∈ [[0, 1]], m.Nodup)
      ∧ (∀ m ∈ [[0, 1]], ∀ x ∈ ([] : List Nat), x ∉ m)
      ∧ (∀ m ∈ [[0, 1]], ∀ p ∈ ([] : List (Nat × Nat)), loserOf toadsW p ∉ m)
      ∧ (∀ x ∈ ([] : List Nat), ∀ p ∈ ([] : List (Nat × Nat)), p.2 ≠ x
          ∧ (loserOf toadsW p = x → p.1 = x))
      ∧ ([] : List Nat).Nodup) := by
  have hs : TimestampSorted toadsW := by norm_num [TimestampSorted, toadsW]
  have hE : match_toads toadsW 1 2 = ([[0, 1]], [], []) := by
    norm_num [toadsW, match_toads, outerGo, anchorScan, innerGo, updateRx, lookupRx]
  exact ⟨hs, by norm_num, by norm_num,
    C1_amended_membership_partition toadsW 1 2 [[0, 1]] [] [] hs (by norm_num)
      (by norm_num) hE⟩

/-! ## Claim C3 -/

/-- C3 counterexample: on the sorted input `toadsC3` with `window = 1` and
anchor `0`, index `1` is the first index whose timestamp exceeds
`timestamp(0) + window`, yet the inner loop body still runs for index
`2 > 1`: the transmitter-id test precedes the timestamp test, so a
different-transmitter out-of-window detection does not stop the scan.  The
scan therefore does not "stop entirely at the first index whose timestamp
exceeds the bound, irrespective of that detection's transmitter id". -/
theorem C3_counterexample :
    TimestampSorted toadsC3 ∧ (0 : ℚ) ≤ 1
    ∧ tsAt toadsC3 0 + 1 < tsAt toadsC3 1
    ∧ (1 : Nat) < 2
    ∧ 2 ∈ innerVisits toadsC3 (toadsC3.getD 0 default) 1 (List.range' 1 2) := by
  refine ⟨by norm_num [TimestampSorted, toadsC3], by norm_num, ?_, by norm_num, ?_⟩
  · norm_num [toadsC3, tsAt]
  · norm_num [toadsC3, innerVisits, List.range']

/-- C3 amended: for every anchor `i` on a sorted input, nothing at or past
the first out-of-window index is ever consumed: if `j₀ > i` is out of
window for anchor `i`, then no `m ≥ j₀` is killed by the scan, none is a
member of the window, and none appears in either position of any collision
pair of the window.  (The loop may still iterate past `j₀` over
different-transmitter detections — see the counterexample — but with no
effect.) -/
theorem C3_amended_no_consumption_past_cutoff (toads : List DetectionResult) (window : ℚ)
    (i j0 m : Nat)
    (hs : TimestampSorted toads)
    (hij : i < j0) (hjm : j0 ≤ m)
    (hts : tsAt toads i + window < tsAt toads j0) :
    m ∉ consumedBy toads window i
    ∧ m ∉ windowMembers toads window i
    ∧ ∀ p ∈ collisionsOf toads window i, p.1 ≠ m ∧ p.2 ≠ m := by
  by_cases hin : i < toads.length
  · obtain ⟨_, _, sub, c4, c5, _, _⟩ := anchor_master toads window i hin
    have hnotcons : m ∉ consumedBy toads window i := by
      intro hc
      obtain ⟨⟨_, hmn⟩, _, hts'⟩ := c4 m hc
      have : tsAt toads j0 ≤ tsAt toads m := tsAt_mono hs hjm hmn
      linarith
    refine ⟨hnotcons, ?_, ?_⟩
    · intro hmem
      rcases sub m hmem with rfl | hc
      · omega
      · exact hnotcons hc
    · intro p hp
      obtain ⟨hp2, hp1, _⟩ := c5 p hp
      constructor
      · intro he
        rcases hp1 with h | h
        · omega
        · exact hnotcons (he ▸ h)
      · intro he
        exact hnotcons (he ▸ hp2)
  · have h0 : toads.length - (i + 1) = 0 := by omega
    have hscan : anchorScan toads window i
        = ([((toads.getD i default).rxid, i)], [], []) := by
      rw [anchorScan, h0]
      rfl
    refine ⟨?_, ?_, ?_⟩
    · rw [consumedBy, hscan]
      simp
    · rw [windowMembers, hscan]
      simp
      omega
    · rw [collisionsOf, hscan]
      simp

theorem C3_amended_witness :
    TimestampSorted toadsC3 ∧ (0 : Nat) < 1 ∧ (1 : Nat) ≤ 2
    ∧ tsAt toadsC3 0 + 1 < tsAt toadsC3 1
    ∧ (2 ∉ consumedBy toadsC3 1 0
       ∧ 2 ∉ windowMembers toadsC3 1 0
       ∧ ∀ p ∈ collisionsOf toadsC3 1 0, p.1 ≠ 2 ∧ p.2 ≠ 2) := by
  have hs : TimestampSorted toadsC3 := by norm_num [TimestampSorted, toadsC3]
  have hts : tsAt toadsC3 0 + 1 < tsAt toadsC3 1 := by norm_num [toadsC3, tsAt]
  exact ⟨hs, by norm_num, by norm_num, hts,
    C3_amended_no_consumption_past_cutoff toadsC3 1 0 1 2 hs (by norm_num) (by norm_num) hts⟩

/-! ## Claim C7 -/

/-- Setting inside the prefix: taking one more element after `set n` splits
as the old prefix plus the new element. -/
theorem take_succ_set {α : Type} (a : α) :
    ∀ (l : List α) (n : Nat), n < l.length → (l.set n a).take (n + 1) = l.take n ++ [a] := by
  intro l
  induction l with
  | nil =>
    intro n h
    simp at h
  | cons x xs ih =>
    intro n h
    cases n with
    | zero => simp
    | succ k =>
      simp only [List.set_cons_succ, List.take_succ_cons, List.take_cons_succ]
      rw [ih k (by simpa using h)]
      rfl

/-- The row loop fails as soon as some canonical receiver is missing. -/
theorem rowLoop_none_of_missing (dets : List DetectionResult) (m : List Nat)
    (match_rxids : List Nat) (txids : Option (List Nat)) :
    ∀ (rxlist : List Nat) (pos : Nat) (row : List (Option Nat)),
    ¬ (∀ r ∈ rxlist, r ∈ match_rxids) →
    rowLoop dets m match_rxids txids rxlist pos row = none := by
  intro rxlist
  induction rxlist with
  | nil =>
    intro pos row h
    exact absurd (by simp) h
  | cons r rest ih =>
    intro pos row h
    rw [rowLoop]
    by_cases hr : r ∈ match_rxids
    · rw [if_neg (by simpa using hr)]
      by_cases htx : txAllowed dets m txids = false
      · rw [if_pos htx]
      · rw [if_neg htx]
        refine ih _ _ ?_
        intro hrest
        exact h (by
          intro x hx
          rcases List.mem_cons.mp hx with rfl | hx
          · exact hr
          · exact hrest x hx)
    · rw [if_pos (by simpa using hr)]

/-- The row loop fails on a nonempty receiver list when the transmitter
filter rejects the match. -/
theorem rowLoop_none_of_filtered (dets : List DetectionResult) (m : List Nat)
    (match_rxids : List Nat) (txids : Option (List Nat))
    (r : Nat) (rest : List Nat) (pos : Nat) (row : List (Option Nat))
    (htx : txAllowed dets m txids = false) :
    rowLoop dets m match_rxids txids (r :: rest) pos row = none := by
  rw [rowLoop]
  by_cases hr : r ∈ match_rxids
  · rw [if_neg (by simpa using hr), if_pos htx]
  · rw [if_pos (by simpa using hr)]

/-- When every canonical receiver is present and the filter passes, the row
loop completes and fills positions `pos, pos+1, …` with the per-receiver
member indices. -/
theorem rowLoop_some (dets : List DetectionResult) (m : List Nat)
    (match_rxids : List Nat) (txids : Option (List Nat)) :
    ∀ (rxlist : List Nat) (pos : Nat) (row : List (Option Nat)),
    (∀ r ∈ rxlist, r ∈ match_rxids) →
    txAllowed dets m txids = true →
    row.length = pos + rxlist.length →
    rowLoop dets m match_rxids txids rxlist pos row
      = some (row.take pos
          ++ rxlist.map (fun r => some (m.getD (match_rxids.indexOf r) 0))) := by
  intro rxlist
  induction rxlist with
  | nil =>
    intro pos row _ _ hlen
    rw [rowLoop]
    simp at hlen
    rw [List.map_nil, List.append_nil, List.take_of_length_le (le_of_eq hlen)]
  | cons r rest ih =>
    intro pos row hall htx hlen
    rw [rowLoop]
    rw [if_neg (by simpa using hall r (List.mem_cons_self _ _))]
    rw [if_neg (by simp [htx])]
    rw [ih (pos + 1) _ (fun x hx => hall x (List.mem_cons_of_mem _ hx)) htx
      (by simp at hlen ⊢; omega)]
    rw [take_succ_set _ _ _ (by simp at hlen ⊢; omega)]
    simp

/-- C7 counterexample: with an empty `receiver_order` and a transmitter
filter that excludes the match's transmitter, `extract_match_matrix` still
emits one (empty) row per match — the claim says the filtered match
contributes no row.  `specMatchMatrix`, which follows the spec's words,
emits nothing. -/
theorem C7_counterexample :
    extract_match_matrix [⟨0, 0, 1, ⟨0⟩⟩] [[0]] [] (some [2]) = [[]]
    ∧ txAllowed [⟨0, 0, 1, ⟨0⟩⟩] [0] (some [2]) = false
    ∧ specMatchMatrix [⟨0, 0, 1, ⟨0⟩⟩] [[0]] [] (some [2]) = [] := by
  refine ⟨?_, by decide, ?_⟩
  · rw [extract_match_matrix]
    rfl
  · rw [specMatchMatrix]
    rfl

/-- C7 amended: for every nonempty `receiver_order`, `extract_match_matrix`
emits exactly one row per match that contains every canonical receiver and
passes the transmitter filter (never a partial row), preserving match
order, the row listing per canonical receiver the first match member with
that receiver id — this is `specMatchMatrix`, the direct transcription of
the spec.  For an empty `receiver_order` the builder instead emits one
empty row per match, regardless of the transmitter filter. -/
theorem C7_amended_matrix_builder (dets : List DetectionResult) (ms : List (List Nat))
    (txids : Option (List Nat)) :
    (∀ rxids : List Nat, rxids ≠ [] →
      extract_match_matrix dets ms rxids txids = specMatchMatrix dets ms rxids txids)
    ∧ extract_match_matrix dets ms [] txids = ms.map (fun _ => []) := by
  constructor
  · intro rxids hne
    rw [extract_match_matrix, specMatchMatrix]
    refine List.filterMap_congr ?_
    intro m _
    by_cases hall : ∀ r ∈ rxids, r ∈ m.map (fun v => (dets.getD v default).rxid)
    · by_cases htx : txAllowed dets m txids = true
      · rw [rowLoop_some dets m _ txids rxids 0 _ hall htx (by simp)]
        rw [if_pos ⟨hall, htx⟩]
        simp
      · obtain ⟨r, rest, rfl⟩ : ∃ r rest, rxids = r :: rest := by
          cases rxids with
          | nil => exact absurd rfl hne
          | cons r rest => exact ⟨r, rest, rfl⟩
        rw [rowLoop_none_of_filtered dets m _ txids r rest 0 _
          (by simpa using htx)]
        rw [if_neg (by tauto)]
    · rw [rowLoop_none_of_missing dets m _ txids rxids 0 _ hall]
      rw [if_neg (by tauto)]
  · rw [extract_match_matrix]
    induction ms with
    | nil => rfl
    | cons m rest ih =>
      rw [List.filterMap_cons, List.map_cons]
      rw [ih]
      rfl

theorem C7_amended_witness :
    ([0, 1] : List Nat) ≠ []
    ∧ extract_match_matrix toadsW [[0, 1]] [0, 1] none
        = specMatchMatrix toadsW [[0, 1]] [0, 1] none
    ∧ extract_match_matrix toadsW [[0, 1]] [] none = [[0, 1]].map (fun _ => []) := by
  refine ⟨by simp, ?_, (C7_amended_matrix_builder toadsW [[0, 1]] none).2⟩
  exact (C7_amended_matrix_builder toadsW [[0, 1]] none).1 [0, 1] (by simp)

/-! ## Claims C8 and C9: the match store -/

theorem digit_char_props {c : Char} (h : isDigitCh c = true) :
    isPyWs c = false ∧ c ≠ '#' ∧ c ≠ '-' ∧ c ≠ '+' := by
  rw [isDigitCh] at h
  simp at h
  refine ⟨?_, ?_, ?_, ?_⟩
  · rw [isPyWs]
    have h1 : c ≠ ' ' := by
      intro he
      subst he
      revert h
      decide
    have h2 : c ≠ '\t' := by
      intro he
      subst he
      revert h
      decide
    have h3 : c ≠ '\n' := by
      intro he
      subst he
      revert h
      decide
    have h4 : c ≠ '\r' := by
      intro he
      subst he
      revert h
      decide
    have h5 : c ≠ '\x0b' := by
      intro he
      subst he
      revert h
      decide
    have h6 : c ≠ '\x0c' := by
      intro he
      subst he
      revert h
      decide
    simp [h1, h2, h3, h4, h5, h6]
  · intro he
    subst he
    revert h
    decide
  · intro he
    subst he
    revert h
    decide
  · intro he
    subst he
    revert h
    decide

theorem digitChar_isDigit {d : Nat} (h : d < 10) : isDigitCh (Nat.digitChar d) = true := by
  interval_cases d <;> decide

theorem digitChar_val {d : Nat} (h : d < 10) : (Nat.digitChar d).toNat - 48 = d := by
  interval_cases d <;> decide

theorem natRepr_ne_nil (n : Nat) : natRepr n ≠ [] := by
  rw [natRepr]
  split_ifs with h
  · simp
  · simp [Nat.digits_ne_nil_iff_ne_zero.mpr h]

theorem natRepr_digits (n : Nat) : ∀ c ∈ natRepr n, isDigitCh c = true := by
  intro c hc
  rw [natRepr] at hc
  split_ifs at hc with h
  · rcases List.mem_singleton.mp hc with rfl
    decide
  · obtain ⟨d, hd, rfl⟩ := List.mem_map.mp hc
    exact digitChar_isDigit (Nat.digits_lt_base (by norm_num) (List.mem_reverse.mp hd))

/-- Big-endian decimal fold of the reversed digit list recovers the
number. -/
theorem foldl_reverse_ofDigits :
    ∀ l : List Nat, List.foldl (fun a d => 10 * a + d) 0 l.reverse = Nat.ofDigits 10 l := by
  intro l
  induction l with
  | nil => rfl
  | cons d L ih =>
    rw [List.reverse_cons, List.foldl_append, ih, Nat.ofDigits_cons]
    simp
    ring

theorem foldl_digits_congr :
    ∀ (l : List Nat) (x : Nat), (∀ d ∈ l, d < 10) →
    List.foldl (fun a c => 10 * a + (c.toNat - 48)) x (l.map Nat.digitChar)
      = List.foldl (fun a d => 10 * a + d) x l := by
  intro l
  induction l with
  | nil => intro x _; rfl
  | cons d L ih =>
    intro x h
    rw [List.map_cons, List.foldl_cons, List.foldl_cons]
    rw [digitChar_val (h d (List.mem_cons_self _ _))]
    exact ih _ (fun e he => h e (List.mem_cons_of_mem _ he))

theorem parseNatDigits_natRepr (n : Nat) : parseNatDigits (natRepr n) = some n := by
  rw [parseNatDigits, if_pos ⟨natRepr_ne_nil n, List.all_eq_true.mpr (natRepr_digits n)⟩]
  congr 1
  rw [natRepr]
  split_ifs with h
  · subst h
    decide
  · rw [foldl_digits_congr _ _ (fun d hd =>
      Nat.digits_lt_base (by norm_num) (List.mem_reverse.mp hd))]
    rw [foldl_reverse_ofDigits, Nat.ofDigits_digits]

theorem pyInt_natRepr (n : Nat) : pyInt (natRepr n) = some (n : Int) := by
  obtain ⟨c, cs, hc⟩ : ∃ c cs, natRepr n = c :: cs := by
    cases he : natRepr n with
    | nil => exact absurd he (natRepr_ne_nil n)
    | cons c cs => exact ⟨c, cs, rfl⟩
  have hcd : isDigitCh c = true := natRepr_digits n c (by rw [hc]; exact List.mem_cons_self _ _)
  obtain ⟨_, _, hminus, hplus⟩ := digit_char_props hcd
  rw [pyInt, hc]
  rw [if_neg (by simp [hminus]), if_neg (by simp [hplus])]
  rw [← hc, parseNatDigits_natRepr]
  rfl

theorem mapOpt_natRepr (m : List Nat) :
    mapOpt pyInt (m.map natRepr) = some (m.map Int.ofNat) := by
  induction m with
  | nil => rfl
  | cons n rest ih =>
    rw [List.map_cons, mapOpt, pyInt_natRepr, ih]
    rfl

/-- Consuming a whitespace-free token prefix just accumulates it. -/
theorem splitWsAux_token :
    ∀ (t : List Char) (acc rest : List Char), (∀ c ∈ t, isPyWs c = false) →
    splitWsAux (t ++ rest) acc = splitWsAux rest (t.reverse ++ acc) := by
  intro t
  induction t with
  | nil => intro acc rest _; simp
  | cons c t' ih =>
    intro acc rest h
    rw [List.cons_append, splitWsAux, if_neg (by simp [h c (List.mem_cons_self _ _)])]
    rw [ih _ _ (fun e he => h e (List.mem_cons_of_mem _ he))]
    simp

/-- A whitespace character with a nonempty accumulator emits the token. -/
theorem splitWsAux_ws {c : Char} (hc : isPyWs c = true) (rest acc : List Char)
    (hacc : acc ≠ []) :
    splitWsAux (c :: rest) acc = acc.reverse :: splitWsAux rest [] := by
  rw [splitWsAux, if_pos hc, if_neg hacc]

/-- Splitting the space-joined, newline-terminated token list recovers the
tokens, when every token is nonempty and whitespace-free. -/
theorem splitWs_joinSp :
    ∀ ts : List (List Char),
    (∀ t ∈ ts, t ≠ [] ∧ ∀ c ∈ t, isPyWs c = false) →
    splitWs (joinSp ts ++ ['\n']) = ts := by
  intro ts
  induction ts with
  | nil =>
    intro _
    decide
  | cons t rest ih =>
    intro h
    obtain ⟨ht1, ht2⟩ := h t (List.mem_cons_self _ _)
    cases rest with
    | nil =>
      rw [joinSp, splitWs, splitWsAux_token t [] ['\n'] ht2]
      rw [splitWsAux_ws (by decide) [] _ (by simp [ht1])]
      simp
      rfl
    | cons t2 rest2 =>
      rw [joinSp]
      rw [splitWs]
      have : (t ++ ' ' :: joinSp (t2 :: rest2)) ++ ['\n']
          = t ++ (' ' :: (joinSp (t2 :: rest2) ++ ['\n'])) := by simp
      rw [this, splitWsAux_token t [] _ ht2]
      rw [splitWsAux_ws (by decide) _ _ (by simp [ht1])]
      simp only [List.append_nil, List.reverse_reverse]
      rw [← splitWs]
      rw [ih (fun u hu => h u (List.mem_cons_of_mem _ hu))]
      simp

/-- A joined token list starting with token `t` starts with `t`. -/
theorem joinSp_cons (t : List Char) (ts : List (List Char)) :
    ∃ tail, joinSp (t :: ts) = t ++ tail := by
  cases ts with
  | nil => exact ⟨[], by simp [joinSp]⟩
  | cons t2 rest => exact ⟨' ' :: joinSp (t2 :: rest), by rw [joinSp] <;> simp⟩

/-- Shape of one line written by `save_matches`: never empty, never a
comment line. -/
theorem saveLine_shape (m : List Nat) :
    (joinSp (m.map natRepr) ++ ['\n']).length ≠ 0
    ∧ (joinSp (m.map natRepr) ++ ['\n']).head? ≠ some '#' := by
  refine ⟨by simp, ?_⟩
  cases m with
  | nil => decide
  | cons n rest =>
    obtain ⟨c, cs, hc⟩ : ∃ c cs, natRepr n = c :: cs := by
      cases he : natRepr n with
      | nil => exact absurd he (natRepr_ne_nil n)
      | cons c cs => exact ⟨c, cs, rfl⟩
    have hcd : isDigitCh c = true :=
      natRepr_digits n c (by rw [hc]; exact List.mem_cons_self _ _)
    obtain ⟨_, hhash, _, _⟩ := digit_char_props hcd
    obtain ⟨tail, htail⟩ := joinSp_cons (natRepr n) (rest.map natRepr)
    rw [List.map_cons, htail, hc]
    simp [hhash]

/-- C8 counterexample: a line consisting of a single newline — a blank
line — is not skipped by `load_matches`: it yields the empty match, so
blank lines are not "ignored on read"; and `save_matches` of a list
containing an empty match writes exactly such a blank line, so blank lines
are produced on write.  (This behavior is what makes the C9 round trip
hold for empty index-lists.) -/
theorem C8_counterexample :
    load_matches [['\n']] = some [[]]
    ∧ save_matches [[]] = [['\n']] := by
  constructor <;> decide

/-- C8 amended: on read, `load_matches` skips exactly the lines of length
zero and the lines whose first character is `'#'`; a whitespace-only line
(such as a lone newline, which file iteration yields for a blank line) is
kept and parses to the empty match.  On write, `save_matches` never
produces a length-zero line and never a comment line, but it does produce
the blank line `"\n"` for an empty match.  Every kept line yields exactly
one match of whitespace-separated integers. -/
theorem C8_amended_line_discipline :
    (∀ ms : List (List Nat), ∀ line ∈ save_matches ms,
        line.length ≠ 0 ∧ line.head? ≠ some '#')
    ∧ (∀ (line : List Char) (rest : List (List Char)),
        line.length = 0 ∨ line.head? = some '#' →
        load_matches (line :: rest) = load_matches rest)
    ∧ save_matches [[]] = [['\n']]
    ∧ load_matches [['\n']] = some [[]] := by
  refine ⟨?_, ?_, by decide, by decide⟩
  · intro ms line hline
    obtain ⟨m, _, rfl⟩ := List.mem_map.mp hline
    exact saveLine_shape m
  · intro line rest h
    rw [load_matches, if_pos h]

theorem C8_amended_witness :
    ((['0', '\n'] : List Char).length ≠ 0 ∧ (['0', '\n'] : List Char).head? ≠ some '#')
    ∧ load_matches [['#', 'c'], ['0', '\n']] = load_matches [['0', '\n']] := by
  constructor
  · exact C8_amended_line_discipline.1 [[0]] ['0', '\n'] (by decide)
  · exact C8_amended_line_discipline.2.1 ['#', 'c'] [['0', '\n']] (Or.inr (by decide))

/-- C9: the store round-trips: loading the lines produced by
`save_matches` returns exactly the original list of index-lists (as
integers), for every list of lists of non-negative integers, including the
empty list and lists containing empty index-lists, preserving the order of
matches and of indices within each match. -/
theorem C9_round_trip (ms : List (List Nat)) :
    load_matches (save_matches ms) = some (ms.map (fun m => m.map Int.ofNat)) := by
  induction ms with
  | nil => rfl
  | cons m rest ih =>
    rw [save_matches, List.map_cons]
    rw [load_matches]
    obtain ⟨hlen, hhash⟩ := saveLine_shape m
    rw [if_neg (by
      rintro (h | h)
      · exact hlen h
      · exact hhash h)]
    have hsplit : splitWs (joinSp (m.map natRepr) ++ ['\n']) = m.map natRepr := by
      refine splitWs_joinSp _ ?_
      intro t ht
      obtain ⟨n, _, rfl⟩ := List.mem_map.mp ht
      exact ⟨natRepr_ne_nil n,
        fun c hc => (digit_char_props (natRepr_digits n c hc)).1⟩
    rw [hsplit, mapOpt_natRepr]
    rw [show (List.map (fun m => joinSp (m.map natRepr) ++ ['\n']) rest)
        = save_matches rest from rfl]
    rw [ih]
    rfl
